import Mathlib

/-!
Shallow embedding of the two subsystems of this repository:

* `kernel/bio.c` — the block buffer cache (hash-bucketed, per-bucket lists,
  LRU eviction by `mticks` with cross-bucket stealing).
* `kernel/kalloc.c` — the physical page allocator with a reference-count
  table and copy-on-write fault resolution (`cowalloc`).

The embedding is sequential: each C function becomes a pure state
transformer.  Spinlock/sleep-lock acquisitions do not change the modelled
data, so a single call runs atomically; the lock *order* of `bget` is
modelled separately as an event trace (see `bgetTrace`).  `uint` fields on
which the code does arithmetic (`refcnt`, the page reference counts) are
modelled as `Nat` with explicit reduction modulo 2^32, so that the C
increment/decrement (including wrap-around) is reproduced exactly.
A fallible function returns `Option`; `none` models `panic`.
-/

/-- 2^32: the modulus of the C `uint` type used for reference counts. -/
def UINTMOD : Nat := 4294967296

/-- The C `uint` increment `x++`. -/
def uincr (n : Nat) : Nat := (n + 1) % UINTMOD

/-- The C `uint` decrement `x--` (wraps at 0, like `--ref[...]` in kalloc.c). -/
def udecr (n : Nat) : Nat := (n + (UINTMOD - 1)) % UINTMOD

/-! ## Buffer cache data model (bio.c) -/

/-- One cache slot (`struct buf`).  `data` is the opaque one-block payload
(the embedding does not inspect block contents, so a single `Nat` stands for
the byte array).  `mticks` is the LRU stamp written by `brelse`. -/
structure Buf where
  dev : Nat
  blockno : Nat
  valid : Bool
  refcnt : Nat
  mticks : Nat
  data : Nat
deriving DecidableEq

/-- `NBUCKET` from bio.c. -/
def NBUCKET : Nat := 13

/-- `HASH(id)` from bio.c line 28. -/
def HASH (id : Nat) : Nat := id % NBUCKET

/-- The whole cache (`bcache`): the fixed pool of buffers, addressed by
index into `bufs`, plus per-bucket lists of buffer indices in scan order
(`head.next` first; head insertion in the C list is `List.cons` here). -/
structure Cache where
  bufs : List Buf
  buckets : Nat → List Nat

def getBuf (st : Cache) (i : Nat) : Option Buf := st.bufs.get? i

def getBucket (st : Cache) (k : Nat) : List Nat := st.buckets k

def setBucket (st : Cache) (k : Nat) (l : List Nat) : Cache :=
  { st with buckets := fun x => if x = k then l else st.buckets x }

/-- Point update of the buffer pool (the C code mutates `*b` in place). -/
def modifyBuf (bufs : List Buf) (i : Nat) (f : Buf → Buf) : List Buf :=
  match bufs.get? i with
  | some b => bufs.set i (f b)
  | none => bufs

/-- Does buffer `i` cache block (`d`, `bn`)?  Mirrors the scan condition
`b->dev == dev && b->blockno == blockno` (bio.c lines 93/116). -/
def matchAt (bufs : List Buf) (d bn i : Nat) : Bool :=
  match bufs.get? i with
  | some b => b.dev == d && b.blockno == bn
  | none => false

/-- The bucket scan for a cached block (bio.c lines 91-100 and 115-123):
first index in scan order whose buffer matches the key. -/
def scanKey (bufs : List Buf) (d bn : Nat) : List Nat → Option Nat
  | [] => none
  | i :: rest => if matchAt bufs d bn i then some i else scanKey bufs d bn rest

/-- The eviction scan of one bucket (bio.c lines 128-135 and 152-157):
walk the list keeping the pair `(p, min_ticks)`; a buffer replaces the
accumulator iff `refcnt == 0 && (mticks < min_ticks || p == 0)`. -/
def scanEvict (bufs : List Buf) : List Nat → Option (Nat × Nat) → Option (Nat × Nat)
  | [], acc => acc
  | i :: rest, acc =>
    match bufs.get? i with
    | none => scanEvict bufs rest acc
    | some b =>
      match acc with
      | none =>
        if b.refcnt = 0 then scanEvict bufs rest (some (i, b.mticks))
        else scanEvict bufs rest none
      | some (p, mp) =>
        if b.refcnt = 0 ∧ b.mticks < mp then scanEvict bufs rest (some (i, b.mticks))
        else scanEvict bufs rest (some (p, mp))

/-- Cache-hit effect (bio.c line 95): `b->refcnt++`. -/
def bumpRef (st : Cache) (i : Nat) : Cache :=
  { st with bufs := modifyBuf st.bufs i (fun b => { b with refcnt := uincr b.refcnt }) }

/-- Repurposing a victim in place (bio.c lines 138-141 and 159-162):
set the key, `refcnt++` (from 0), mark invalid. -/
def repurposeAt (st : Cache) (j d bn : Nat) : Cache :=
  { st with bufs := modifyBuf st.bufs j (fun b =>
      { b with dev := d, blockno := bn, refcnt := uincr b.refcnt, valid := false }) }

/-- Cross-bucket migration (bio.c lines 163-171): unlink `j` from bucket
`src`, then insert it at the head of bucket `dst`. -/
def stealState (st : Cache) (j src dst : Nat) : Cache :=
  let st1 := setBucket st src ((getBucket st src).erase j)
  setBucket st1 dst (j :: getBucket st1 dst)

/-- The cyclic order of the other buckets (bio.c line 150):
`i = HASH(bid+1); i != bid; i = HASH(i+1)`. -/
def otherBuckets (bid : Nat) : List Nat :=
  (List.range (NBUCKET - 1)).map (fun t => (bid + 1 + t) % NBUCKET)

/-- The stealing loop of `bget` (bio.c lines 150-178) over the remaining
buckets; `none` models reaching `panic("bget: no buffers")`. -/
def stealLoop (st : Cache) (d bn bid : Nat) : List Nat → Option (Cache × Nat)
  | [] => none
  | k :: rest =>
    match scanEvict st.bufs (getBucket st k) none with
    | some (j, _) => some (stealState (repurposeAt st j d bn) j k bid, j)
    | none => stealLoop st d bn bid rest

/-- `bget` (bio.c lines 81-182).  The second key scan is the re-scan after
taking the eviction lock (lines 115-123); in this sequential embedding the
state is unchanged between the two scans, so it runs on the same state.
Returns the updated cache and the index of the returned buffer;
`none` models `panic("bget: no buffers")`. -/
def bget (st : Cache) (d bn : Nat) : Option (Cache × Nat) :=
  let bid := HASH bn
  match scanKey st.bufs d bn (getBucket st bid) with
  | some i => some (bumpRef st i, i)
  | none =>
    match scanKey st.bufs d bn (getBucket st bid) with
    | some i => some (bumpRef st i, i)
    | none =>
      match scanEvict st.bufs (getBucket st bid) none with
      | some (j, _) => some (repurposeAt st j d bn, j)
      | none => stealLoop st d bn bid (otherBuckets bid)

/-- `bread` (bio.c lines 186-198).  `disk` maps (dev, blockno) to the block
contents delivered by `virtio_disk_rw(b, 0)`.  The third component counts
the storage reads performed (0 on a valid buffer, 1 otherwise). -/
def bread (st : Cache) (disk : Nat → Nat → Nat) (d bn : Nat) : Option (Cache × Nat × Nat) :=
  match bget st d bn with
  | none => none
  | some (st1, i) =>
    match getBuf st1 i with
    | none => none
    | some b =>
      if b.valid then some (st1, i, 0)
      else
        some ({ st1 with bufs := modifyBuf st1.bufs i (fun b0 =>
                  { b0 with valid := true, data := disk d bn }) }, i, 1)

/-- `bwrite` (bio.c lines 201-206): one storage write of the buffer's
contents at its key.  The sleep lock held by the caller is not part of the
modelled data; the `holdingsleep` panic concerns only that lock. -/
def bwrite (disk : Nat → Nat → Nat) (b : Buf) : Nat → Nat → Nat :=
  fun d bn => if d = b.dev ∧ bn = b.blockno then b.data else disk d bn

/-- `brelse` (bio.c lines 210-242): `refcnt--`; when it reaches 0 the
buffer's `mticks` is stamped with the current `ticks` value `t` (field
form of `refcnt--; if (refcnt == 0) mticks = ticks`). -/
def brelse (st : Cache) (i t : Nat) : Cache :=
  { st with bufs := modifyBuf st.bufs i (fun b =>
      { b with refcnt := udecr b.refcnt,
               mticks := if udecr b.refcnt = 0 then t else b.mticks }) }

/-- `bpin` (bio.c lines 244-250). -/
def bpin (st : Cache) (i : Nat) : Cache :=
  { st with bufs := modifyBuf st.bufs i (fun b => { b with refcnt := uincr b.refcnt }) }

/-- `bunpin` (bio.c lines 252-258). -/
def bunpin (st : Cache) (i : Nat) : Cache :=
  { st with bufs := modifyBuf st.bufs i (fun b => { b with refcnt := udecr b.refcnt }) }

/-- A freshly zero-initialised `struct buf` (C static storage). -/
def bufInit : Buf :=
  { dev := 0, blockno := 0, valid := false, refcnt := 0, mticks := 0, data := 0 }

/-- `binit` (bio.c lines 49-76): all `nbuf` buffers are head-inserted into
bucket 0, so bucket 0's scan order is `[nbuf-1, ..., 0]`. -/
def binit (nbuf : Nat) : Cache :=
  { bufs := List.replicate nbuf bufInit,
    buckets := fun k => if k = 0 then (List.range nbuf).reverse else [] }

/-- Valid-or-in-use: the buffers to which the no-duplicate-caching
invariant applies. -/
def isCached (b : Buf) : Prop := b.valid = true ∨ 0 < b.refcnt

/-- The cache states reachable through the interface, starting from
`binit`.  `brelse`/`bunpin`/`bpin` are applied only to a buffer currently
held (`refcnt > 0`), which the kernel's usage protocol guarantees (brelse
and bwrite panic via `holdingsleep` otherwise, and bpin/bunpin are called
on handles returned by `bread`). -/
inductive Reach (nbuf : Nat) : Cache → Prop where
  | init : Reach nbuf (binit nbuf)
  | step_bread {st st' : Cache} {disk : Nat → Nat → Nat} {d bn i r : Nat} :
      Reach nbuf st → bread st disk d bn = some (st', i, r) → Reach nbuf st'
  | step_brelse {st : Cache} {i t : Nat} {b : Buf} :
      Reach nbuf st → getBuf st i = some b → 0 < b.refcnt → Reach nbuf (brelse st i t)
  | step_bpin {st : Cache} {i : Nat} {b : Buf} :
      Reach nbuf st → getBuf st i = some b → 0 < b.refcnt → Reach nbuf (bpin st i)
  | step_bunpin {st : Cache} {i : Nat} {b : Buf} :
      Reach nbuf st → getBuf st i = some b → 0 < b.refcnt → Reach nbuf (bunpin st i)

/-! ## Lock-order trace of `bget` (bio.c lines 87-181) -/

/-- Lock events of one `bget` call.  `noBufs` marks the fatal exhaustion
exit (`panic("bget: no buffers")`). -/
inductive Ev where
  | acqB : Nat → Ev
  | relB : Nat → Ev
  | acqG : Ev
  | relG : Ev
  | unlink : Nat → Ev
  | relink : Nat → Ev
  | acqSleep : Nat → Ev
  | noBufs : Ev
deriving DecidableEq

/-- Trace of the stealing loop: each candidate bucket is locked on top of
the (still-held) target-bucket lock; on success the victim is unlinked,
the source lock released, and only then is the victim relinked. -/
def stealTrace (st : Cache) (bid : Nat) : List Nat → List Ev
  | [] => [Ev.relB bid, Ev.relG, Ev.noBufs]
  | k :: rest =>
    match scanEvict st.bufs (getBucket st k) none with
    | some (j, _) =>
      [Ev.acqB k, Ev.unlink j, Ev.relB k, Ev.relink j, Ev.relB bid, Ev.relG, Ev.acqSleep j]
    | none => Ev.acqB k :: Ev.relB k :: stealTrace st bid rest

/-- The full lock/event trace of `bget st d bn`, following bio.c exactly:
initial bucket probe, then on a miss the global lock, the same bucket lock
again, re-scan, in-bucket eviction, and the stealing loop. -/
def bgetTrace (st : Cache) (d bn : Nat) : List Ev :=
  let bid := HASH bn
  match scanKey st.bufs d bn (getBucket st bid) with
  | some i => [Ev.acqB bid, Ev.relB bid, Ev.acqSleep i]
  | none =>
    [Ev.acqB bid, Ev.relB bid, Ev.acqG, Ev.acqB bid] ++
    match scanEvict st.bufs (getBucket st bid) none with
    | some (j, _) => [Ev.relB bid, Ev.relG, Ev.acqSleep j]
    | none => stealTrace st bid (otherBuckets bid)

/-- Bucket locks held, updated by one event (most recently acquired first). -/
def bstep (s : List Nat) : Ev → List Nat
  | Ev.acqB k => k :: s
  | Ev.relB k => s.erase k
  | _ => s

/-- Global eviction lock held, updated by one event. -/
def gstep (g : Bool) : Ev → Bool
  | Ev.acqG => true
  | Ev.relG => false
  | _ => g

/-- The literal lock discipline claimed by the spec: at most one bucket
lock held at any instant. -/
def atMostOneBucket (s : List Nat) : List Ev → Bool
  | [] => true
  | e :: t =>
    let s' := bstep s e
    decide (s'.length ≤ 1) && atMostOneBucket s' t

/-- The discipline the code actually follows, checked stepwise along the
trace.  `bid` is the target bucket.  A bucket lock is acquired only with no
bucket lock held, or (under the global lock) on top of the target's alone;
`unlink` happens with the source and target locks held, `relink` after the
source lock is released (only the target's held); the sleep lock and the
fatal exit are reached with no bucket lock held. -/
def lockOk (bid : Nat) : List Nat → Bool → List Ev → Bool
  | _, _, [] => true
  | s, g, e :: t =>
    (match e with
     | Ev.acqB k => decide (¬ k ∈ s) && (s.isEmpty || (g && s == [bid]))
     | Ev.relB k => decide (k ∈ s)
     | Ev.acqG => !g && s.isEmpty
     | Ev.relG => g
     | Ev.unlink _ => g && s.length == 2 && decide (bid ∈ s)
     | Ev.relink _ => g && s == [bid]
     | Ev.acqSleep _ => s.isEmpty
     | Ev.noBufs => s.isEmpty) &&
    lockOk bid (bstep s e) (gstep g e) t

/-- Checks that every bucket-lock acquisition performed after the global
eviction lock was first taken (the miss path) happens while the global
lock is held.  `seenG` records whether `acquire(&bcache.block)` has
occurred yet; `g` tracks whether it is currently held. -/
def missAcqOk (seenG g : Bool) : List Ev → Bool
  | [] => true
  | Ev.acqG :: t => missAcqOk true true t
  | Ev.relG :: t => missAcqOk seenG false t
  | Ev.acqB _ :: t => (!seenG || g) && missAcqOk seenG g t
  | _ :: t => missAcqOk seenG g t

/-! ## Physical page allocator data model (kalloc.c) -/

/-- `PGSIZE` (riscv.h). -/
def PGSIZE : Nat := 4096

/-- `PHYSTOP` (memlayout.h): `KERNBASE + 128*1024*1024`. -/
def PHYSTOP : Nat := 2281701376

/-- `PGROUNDDOWN` (riscv.h). -/
def PGROUNDDOWN (a : Nat) : Nat := a / PGSIZE * PGSIZE

/-- Allocator state: the free list (`kmem.freelist`, head = most recently
freed), the reference-count table `ref[]` indexed by page number
`pa / PGSIZE`, the contents of each physical page (as a page-number-indexed
map to byte lists), and the linker symbol `end` (first address after the
kernel, the low bound checked by `kfree`). -/
structure KMem where
  freelist : List Nat
  ref : Nat → Nat
  mem : Nat → List Nat
  kend : Nat

/-- `kalloc` (kalloc.c lines 73-89): pop one page off the free list, fill
it with the junk byte 5, set its reference count to 1.  Returns `none`
(the C null) and the unchanged state when the free list is empty. -/
def kalloc (st : KMem) : Option Nat × KMem :=
  match st.freelist with
  | [] => (none, st)
  | r :: rest =>
    (some r,
     { st with
        freelist := rest,
        mem := fun pn => if pn = r / PGSIZE then List.replicate PGSIZE 5 else st.mem pn,
        ref := fun pn => if pn = r / PGSIZE then 1 else st.ref pn })

/-- `kfree` (kalloc.c lines 49-68): panic (`none`) on a misaligned or
out-of-range address; otherwise `--ref[pa/PGSIZE]` (a `uint` decrement),
and only when the result is 0 scrub the page with the junk byte 1 and push
it onto the free list. -/
def kfree (st : KMem) (pa : Nat) : Option KMem :=
  if pa % PGSIZE ≠ 0 ∨ pa < st.kend ∨ PHYSTOP ≤ pa then none
  else
    let pn := pa / PGSIZE
    let r := udecr (st.ref pn)
    if r = 0 then
      some { st with
              ref := fun q => if q = pn then r else st.ref q,
              mem := fun q => if q = pn then List.replicate PGSIZE 1 else st.mem q,
              freelist := pa :: st.freelist }
    else
      some { st with ref := fun q => if q = pn then r else st.ref q }

/-- `n` consecutive `kalloc` calls, collecting each result. -/
def allocRun (st : KMem) : Nat → List (Option Nat) × KMem
  | 0 => ([], st)
  | n + 1 =>
    let p := kalloc st
    let q := allocRun p.2 n
    (p.1 :: q.1, q.2)

/-! ## Copy-on-write fault resolution (kalloc.c lines 97-148)

The page-table collaborators (`walk`, `walkaddr`, `mappages`, the PTE flag
bits) live outside this repository's core (spec section 6 declares them
external interfaces), so they are modelled from the spec. -/

/-- A page table entry: the valid bit `PTE_V`, the writable bit `PTE_W`,
the copy-on-write bit `PTE_F`, the remaining flag bits (opaque), and the
physical page address. -/
structure PTE where
  v : Bool
  w : Bool
  f : Bool
  rest : Nat
  ppn : Nat
deriving DecidableEq

/-- Modelled from the spec: an address space's page table, as the spec's
`lookupEntry` map from the page-aligned virtual address to its entry
(`entry-or-absent`); the walk itself is outside src/. -/
def Pagetable : Type := Nat → Option PTE

/-- Modelled from the spec: `walk(pagetable, va, 0)` — look up the PTE for
`va`'s page, absent if the page-table path is missing. -/
def walk (pt : Pagetable) (va : Nat) : Option PTE := pt (PGROUNDDOWN va)

/-- Modelled from the spec: `walkaddr` resolves the physical address of a
mapped virtual address; 0 (here `none`) if the entry is absent or not
valid. -/
def walkaddr (pt : Pagetable) (va : Nat) : Option Nat :=
  match pt (PGROUNDDOWN va) with
  | some e => if e.v then some e.ppn else none
  | none => none

/-- Point update of a page table. -/
def ptset (pt : Pagetable) (va : Nat) (e : Option PTE) : Pagetable :=
  fun x => if x = va then e else pt x

/-- Combined state for `cowalloc`: the allocator plus the faulting address
space's page table. -/
structure Sys where
  km : KMem
  pt : Pagetable

/-- `cowalloc` (kalloc.c lines 115-148).  `mapOk` is the success/failure
outcome of the spec-modelled `installMapping` collaborator (`mappages`);
its failure comes from page-table-node allocation outside this state.
Outer `none` models a panic (inside `kfree`); the inner `Option Nat` is
the returned physical address, `none` being the C null failure return.
On the shared path: allocate, copy the old page, clear `PTE_V`, install
the new mapping with `PTE_W` set and `PTE_F` clear, and drop one reference
on the old page; on `mappages` failure free the new page, restore `PTE_V`
and return 0. -/
def cowalloc (st : Sys) (va0 : Nat) (mapOk : Bool) : Option (Option Nat × Sys) :=
  let va := PGROUNDDOWN va0
  match walkaddr st.pt va with
  | none => some (none, st)
  | some pa =>
    match walk st.pt va with
    | none => some (none, st)
    | some pte =>
      if st.km.ref (pa / PGSIZE) = 1 then
        some (some pa, { st with pt := ptset st.pt va (some { pte with w := true, f := false }) })
      else
        match kalloc st.km with
        | (none, _) => some (none, st)
        | (some mem, km1) =>
          let km2 := { km1 with
            mem := fun pn => if pn = mem / PGSIZE then km1.mem (pa / PGSIZE) else km1.mem pn }
          let pteNoV := { pte with v := false }
          if mapOk then
            let ptB := ptset st.pt va
              (some { v := true, w := true, f := false, rest := pte.rest, ppn := mem })
            match kfree km2 (PGROUNDDOWN pa) with
            | none => none
            | some km3 => some (some mem, { km := km3, pt := ptB })
          else
            match kfree km2 mem with
            | none => none
            | some km3 =>
              some (none, { km := km3, pt := ptset st.pt va (some { pteNoV with v := true }) })

/-! ## List helper lemmas -/

theorem get?_set_self {α : Type} : ∀ (l : List α) (i : Nat) (a : α), i < l.length →
    (l.set i a).get? i = some a
  | _ :: _, 0, _, _ => rfl
  | _ :: l, i + 1, a, h => get?_set_self l i a (Nat.lt_of_succ_lt_succ h)

theorem get?_set_ne {α : Type} : ∀ (l : List α) (i j : Nat) (a : α), i ≠ j →
    (l.set i a).get? j = l.get? j
  | [], _, _, _, _ => rfl
  | _ :: _, 0, 0, _, h => absurd rfl h
  | _ :: _, 0, _ + 1, _, _ => rfl
  | _ :: _, _ + 1, 0, _, _ => rfl
  | _ :: l, i + 1, j + 1, a, h =>
    get?_set_ne l i j a (fun e => h (congrArg Nat.succ e))

theorem modifyBuf_get_self {bufs : List Buf} {i : Nat} {b : Buf} (f : Buf → Buf)
    (h : bufs.get? i = some b) : (modifyBuf bufs i f).get? i = some (f b) := by
  unfold modifyBuf
  rw [h]
  exact get?_set_self _ _ _ (List.get?_eq_some.1 h).1

theorem modifyBuf_get_ne {bufs : List Buf} {i k : Nat} (f : Buf → Buf)
    (h : i ≠ k) : (modifyBuf bufs i f).get? k = bufs.get? k := by
  unfold modifyBuf
  cases hb : bufs.get? i with
  | none => rfl
  | some b => exact get?_set_ne _ _ _ _ h

/-! ## scanKey lemmas -/

theorem scanKey_none_iff {bufs : List Buf} {d bn : Nat} : ∀ {ids : List Nat},
    scanKey bufs d bn ids = none ↔ ∀ i ∈ ids, matchAt bufs d bn i = false := by
  intro ids
  induction ids with
  | nil => simp [scanKey]
  | cons i rest ih =>
    by_cases hm : matchAt bufs d bn i
    · simp [scanKey, hm]
    · simp only [scanKey, if_neg hm, ih, List.mem_cons]
      constructor
      · intro h x hx
        rcases hx with hx | hx
        · exact hx ▸ Bool.eq_false_iff.2 hm
        · exact h x hx
      · intro h x hx
        exact h x (Or.inr hx)

theorem scanKey_some {bufs : List Buf} {d bn c : Nat} : ∀ {ids : List Nat},
    scanKey bufs d bn ids = some c → c ∈ ids ∧ matchAt bufs d bn c = true := by
  intro ids
  induction ids with
  | nil => intro h; simp [scanKey] at h
  | cons i rest ih =>
    intro h
    by_cases hm : matchAt bufs d bn i
    · simp [scanKey, hm] at h
      exact ⟨h ▸ List.mem_cons_self i rest, h ▸ hm⟩
    · simp only [scanKey, if_neg hm] at h
      rcases ih h with ⟨h1, h2⟩
      exact ⟨List.mem_cons_of_mem _ h1, h2⟩

theorem scanKey_congr {bufs bufs' : List Buf} {d bn : Nat} : ∀ {ids : List Nat},
    (∀ i ∈ ids, matchAt bufs' d bn i = matchAt bufs d bn i) →
    scanKey bufs' d bn ids = scanKey bufs d bn ids := by
  intro ids
  induction ids with
  | nil => intro _; rfl
  | cons i rest ih =>
    intro h
    have hi := h i (List.mem_cons_self i rest)
    simp only [scanKey, hi]
    by_cases hm : matchAt bufs d bn i
    · simp [hm]
    · rw [if_neg hm, if_neg hm]
      exact ih (fun x hx => h x (List.mem_cons_of_mem _ hx))

theorem scanKey_stable {bufs bufs' : List Buf} {d bn c : Nat} : ∀ {ids : List Nat},
    scanKey bufs d bn ids = some c →
    matchAt bufs' d bn c = true →
    (∀ i ∈ ids, matchAt bufs d bn i = false → matchAt bufs' d bn i = false) →
    scanKey bufs' d bn ids = some c := by
  intro ids
  induction ids with
  | nil => intro h; simp [scanKey] at h
  | cons i rest ih =>
    intro h hc hpres
    by_cases hm : matchAt bufs d bn i
    · simp [scanKey, hm] at h
      subst h
      simp [scanKey, hc]
    · simp only [scanKey, if_neg hm] at h
      have hi' : matchAt bufs' d bn i = false :=
        hpres i (List.mem_cons_self i rest) (Bool.eq_false_iff.2 hm)
      simp only [scanKey, hi', Bool.false_eq_true, if_neg, if_false]
      exact ih h hc (fun x hx => hpres x (List.mem_cons_of_mem _ hx))

theorem scanKey_first_new {bufs bufs' : List Buf} {d bn j : Nat} : ∀ {ids : List Nat},
    scanKey bufs d bn ids = none →
    j ∈ ids →
    matchAt bufs' d bn j = true →
    (∀ i ∈ ids, i ≠ j → matchAt bufs' d bn i = matchAt bufs d bn i) →
    scanKey bufs' d bn ids = some j := by
  intro ids
  induction ids with
  | nil => intro _ h; simp at h
  | cons i rest ih =>
    intro hnone hmem hj hpres
    have hall := scanKey_none_iff.1 hnone
    by_cases hij : i = j
    · subst hij
      simp [scanKey, hj]
    · have hi' : matchAt bufs' d bn i = false := by
        rw [hpres i (List.mem_cons_self i rest) hij]
        exact hall i (List.mem_cons_self i rest)
      simp only [scanKey, hi', Bool.false_eq_true, if_false]
      have hmem' : j ∈ rest := by
        rcases List.mem_cons.1 hmem with h | h
        · exact absurd h.symm hij
        · exact h
      have hnone' : scanKey bufs d bn rest = none :=
        scanKey_none_iff.2 (fun x hx => hall x (List.mem_cons_of_mem _ hx))
      exact ih hnone' hmem' hj (fun x hx hxj => hpres x (List.mem_cons_of_mem _ hx) hxj)

theorem scanKey_erase {bufs bufs' : List Buf} {d bn c j : Nat} : ∀ {ids : List Nat},
    scanKey bufs d bn ids = some c →
    c ≠ j →
    matchAt bufs' d bn j = false →
    (∀ i ∈ ids, i ≠ j → matchAt bufs' d bn i = matchAt bufs d bn i) →
    scanKey bufs' d bn (ids.erase j) = some c := by
  intro ids
  induction ids with
  | nil => intro h; simp [scanKey] at h
  | cons i rest ih =>
    intro h hcj hj' hpres
    by_cases hij : i = j
    · rw [hij, List.erase_cons_head]
      by_cases hm : matchAt bufs d bn i
      · simp [scanKey, hm] at h
        rw [hij] at h
        exact absurd h.symm hcj
      · simp only [scanKey, if_neg hm] at h
        exact scanKey_stable h
          (by
            rcases scanKey_some h with ⟨hcmem, hcm⟩
            rw [hpres c (List.mem_cons_of_mem _ hcmem) hcj]
            exact hcm)
          (fun x hx hxf => by
            by_cases hxj : x = j
            · exact hxj ▸ hj'
            · rw [hpres x (List.mem_cons_of_mem _ hx) hxj]; exact hxf)
    · rw [List.erase_cons_tail (by simp [hij])]
      have hieq := hpres i (List.mem_cons_self i rest) hij
      by_cases hm : matchAt bufs d bn i
      · simp [scanKey, hm] at h
        subst h
        simp [scanKey, hieq, hm]
      · simp only [scanKey, if_neg hm] at h
        simp only [scanKey, hieq, Bool.eq_false_iff.2 hm, Bool.false_eq_true, if_false]
        exact ih h hcj hj' (fun x hx hxj => hpres x (List.mem_cons_of_mem _ hx) hxj)
/-! ## scanEvict lemmas: the scan returns the first buffer attaining the
minimum `mticks` among `refcnt = 0` buffers (bio.c tie-break: the strict
comparison `b->mticks < min_ticks` keeps the earliest candidate). -/

theorem scanEvict_acc_ne_none {bufs : List Buf} : ∀ {ids : List Nat} (p mp : Nat),
    scanEvict bufs ids (some (p, mp)) ≠ none := by
  intro ids
  induction ids with
  | nil => intro p mp h; simp [scanEvict] at h
  | cons i rest ih =>
    intro p mp h
    cases hbi : bufs.get? i with
    | none =>
      simp only [scanEvict, hbi] at h
      exact ih p mp h
    | some b =>
      simp only [scanEvict, hbi] at h
      by_cases hc : b.refcnt = 0 ∧ b.mticks < mp
      · rw [if_pos hc] at h; exact ih _ _ h
      · rw [if_neg hc] at h; exact ih _ _ h

theorem scanEvict_acc {bufs : List Buf} : ∀ {ids : List Nat} {p mp q mq : Nat},
    scanEvict bufs ids (some (p, mp)) = some (q, mq) →
    (q = p ∧ mq = mp ∧ ∀ i ∈ ids, ∀ b, bufs.get? i = some b → b.refcnt = 0 → mp ≤ b.mticks)
    ∨ (∃ pre suf bq, ids = pre ++ q :: suf ∧ bufs.get? q = some bq ∧ bq.refcnt = 0 ∧
        bq.mticks = mq ∧ mq < mp ∧
        (∀ i ∈ pre, ∀ b, bufs.get? i = some b → b.refcnt = 0 → mq < b.mticks) ∧
        (∀ i ∈ suf, ∀ b, bufs.get? i = some b → b.refcnt = 0 → mq ≤ b.mticks)) := by
  intro ids
  induction ids with
  | nil =>
    intro p mp q mq h
    simp [scanEvict] at h
    exact Or.inl ⟨h.1.symm, h.2.symm, by simp⟩
  | cons i rest ih =>
    intro p mp q mq h
    cases hbi : bufs.get? i with
    | none =>
      simp only [scanEvict, hbi] at h
      rcases ih h with ⟨h1, h2, h3⟩ | ⟨pre, suf, bq, hsplit, hq, hr, hm, hlt, hpre, hsuf⟩
      · refine Or.inl ⟨h1, h2, ?_⟩
        intro x hx b hb hb0
        rcases List.mem_cons.1 hx with hx | hx
        · rw [hx] at hb; rw [hb] at hbi; cases hbi
        · exact h3 x hx b hb hb0
      · refine Or.inr ⟨i :: pre, suf, bq, by rw [hsplit]; rfl, hq, hr, hm, hlt, ?_, hsuf⟩
        intro x hx b hb hb0
        rcases List.mem_cons.1 hx with hx | hx
        · rw [hx] at hb; rw [hb] at hbi; cases hbi
        · exact hpre x hx b hb hb0
    | some b =>
      simp only [scanEvict, hbi] at h
      by_cases hc : b.refcnt = 0 ∧ b.mticks < mp
      · rw [if_pos hc] at h
        rcases ih h with ⟨h1, h2, h3⟩ | ⟨pre, suf, bq, hsplit, hq, hr, hm, hlt, hpre, hsuf⟩
        · refine Or.inr ⟨[], rest, b, by rw [h1]; rfl, h1 ▸ hbi, hc.1, h2.symm, h2 ▸ hc.2, ?_, ?_⟩
          · intro x hx; simp at hx
          · intro x hx bx hbx hbx0
            exact h2 ▸ h3 x hx bx hbx hbx0
        · refine Or.inr ⟨i :: pre, suf, bq, by rw [hsplit]; rfl, hq, hr, hm,
            Nat.lt_trans hlt hc.2, ?_, hsuf⟩
          intro x hx bx hbx hbx0
          rcases List.mem_cons.1 hx with hx | hx
          · rw [hx] at hbx; rw [hbx] at hbi; cases hbi; exact hlt
          · exact hpre x hx bx hbx hbx0
      · rw [if_neg hc] at h
        have hcc : b.refcnt = 0 → mp ≤ b.mticks := by
          intro h0
          rcases Nat.lt_or_ge b.mticks mp with hlt' | hge
          · exact absurd ⟨h0, hlt'⟩ hc
          · exact hge
        rcases ih h with ⟨h1, h2, h3⟩ | ⟨pre, suf, bq, hsplit, hq, hr, hm, hlt, hpre, hsuf⟩
        · refine Or.inl ⟨h1, h2, ?_⟩
          intro x hx bx hbx hbx0
          rcases List.mem_cons.1 hx with hx | hx
          · rw [hx] at hbx; rw [hbx] at hbi; cases hbi; exact hcc hbx0
          · exact h3 x hx bx hbx hbx0
        · refine Or.inr ⟨i :: pre, suf, bq, by rw [hsplit]; rfl, hq, hr, hm, hlt, ?_, hsuf⟩
          intro x hx bx hbx hbx0
          rcases List.mem_cons.1 hx with hx | hx
          · rw [hx] at hbx; rw [hbx] at hbi; cases hbi
            exact Nat.lt_of_lt_of_le hlt (hcc hbx0)
          · exact hpre x hx bx hbx hbx0

theorem scanEvict_start {bufs : List Buf} : ∀ {ids : List Nat} {q mq : Nat},
    scanEvict bufs ids none = some (q, mq) →
    ∃ pre suf bq, ids = pre ++ q :: suf ∧ bufs.get? q = some bq ∧ bq.refcnt = 0 ∧
      bq.mticks = mq ∧
      (∀ i ∈ pre, ∀ b, bufs.get? i = some b → b.refcnt = 0 → mq < b.mticks) ∧
      (∀ i ∈ suf, ∀ b, bufs.get? i = some b → b.refcnt = 0 → mq ≤ b.mticks) := by
  intro ids
  induction ids with
  | nil => intro q mq h; simp [scanEvict] at h
  | cons i rest ih =>
    intro q mq h
    cases hbi : bufs.get? i with
    | none =>
      simp only [scanEvict, hbi] at h
      rcases ih h with ⟨pre, suf, bq, hsplit, hq, hr, hm, hpre, hsuf⟩
      refine ⟨i :: pre, suf, bq, by rw [hsplit]; rfl, hq, hr, hm, ?_, hsuf⟩
      intro x hx b hb hb0
      rcases List.mem_cons.1 hx with hx | hx
      · rw [hx] at hb; rw [hb] at hbi; cases hbi
      · exact hpre x hx b hb hb0
    | some b =>
      simp only [scanEvict, hbi] at h
      by_cases h0 : b.refcnt = 0
      · rw [if_pos h0] at h
        rcases scanEvict_acc h with ⟨h1, h2, h3⟩ | ⟨pre, suf, bq, hsplit, hq, hr, hm, hlt, hpre, hsuf⟩
        · refine ⟨[], rest, b, by rw [h1]; rfl, h1 ▸ hbi, h0, h2.symm, ?_, ?_⟩
          · intro x hx; simp at hx
          · intro x hx bx hbx hbx0
            exact h2 ▸ h3 x hx bx hbx hbx0
        · refine ⟨i :: pre, suf, bq, by rw [hsplit]; rfl, hq, hr, hm, ?_, hsuf⟩
          intro x hx bx hbx hbx0
          rcases List.mem_cons.1 hx with hx | hx
          · rw [hx] at hbx; rw [hbx] at hbi; cases hbi; exact hlt
          · exact hpre x hx bx hbx hbx0
      · rw [if_neg h0] at h
        rcases ih h with ⟨pre, suf, bq, hsplit, hq, hr, hm, hpre, hsuf⟩
        refine ⟨i :: pre, suf, bq, by rw [hsplit]; rfl, hq, hr, hm, ?_, hsuf⟩
        intro x hx bx hbx hbx0
        rcases List.mem_cons.1 hx with hx | hx
        · rw [hx] at hbx; rw [hbx] at hbi; cases hbi; exact absurd hbx0 h0
        · exact hpre x hx bx hbx hbx0

theorem scanEvict_none_iff {bufs : List Buf} : ∀ {ids : List Nat},
    scanEvict bufs ids none = none ↔
      ∀ i ∈ ids, ∀ b, bufs.get? i = some b → b.refcnt ≠ 0 := by
  intro ids
  induction ids with
  | nil => simp [scanEvict]
  | cons i rest ih =>
    constructor
    · intro h x hx b hb
      cases hbi : bufs.get? i with
      | none =>
        simp only [scanEvict, hbi] at h
        rcases List.mem_cons.1 hx with hx' | hx'
        · rw [hx'] at hb; rw [hb] at hbi; cases hbi
        · exact ih.1 h x hx' b hb
      | some bi =>
        simp only [scanEvict, hbi] at h
        by_cases h0 : bi.refcnt = 0
        · rw [if_pos h0] at h
          exact absurd h (scanEvict_acc_ne_none _ _)
        · rw [if_neg h0] at h
          rcases List.mem_cons.1 hx with hx' | hx'
          · rw [hx'] at hb; rw [hb] at hbi; cases hbi; exact h0
          · exact ih.1 h x hx' b hb
    · intro h
      cases hbi : bufs.get? i with
      | none =>
        simp only [scanEvict, hbi]
        exact ih.2 (fun x hx b hb => h x (List.mem_cons_of_mem _ hx) b hb)
      | some bi =>
        simp only [scanEvict, hbi]
        rw [if_neg (h i (List.mem_cons_self i rest) bi hbi)]
        exact ih.2 (fun x hx b hb => h x (List.mem_cons_of_mem _ hx) b hb)

/-! ## State-shape and path lemmas for bget -/

theorem getBucket_set_self {st : Cache} {k : Nat} {l : List Nat} :
    getBucket (setBucket st k l) k = l := by
  simp [getBucket, setBucket]

theorem getBucket_set_ne {st : Cache} {k x : Nat} {l : List Nat} (h : x ≠ k) :
    getBucket (setBucket st k l) x = getBucket st x := by
  simp [getBucket, setBucket, h]

theorem stealState_bufs {st : Cache} {j src dst : Nat} :
    (stealState st j src dst).bufs = st.bufs := rfl

theorem stealState_bucket_src {st : Cache} {j src dst : Nat} (h : src ≠ dst) :
    getBucket (stealState st j src dst) src = (getBucket st src).erase j := by
  unfold stealState
  rw [getBucket_set_ne h, getBucket_set_self]

theorem stealState_bucket_dst {st : Cache} {j src dst : Nat} (h : src ≠ dst) :
    getBucket (stealState st j src dst) dst = j :: getBucket st dst := by
  unfold stealState
  rw [getBucket_set_self, getBucket_set_ne (Ne.symm h)]

theorem stealState_bucket_other {st : Cache} {j src dst x : Nat}
    (h1 : x ≠ src) (h2 : x ≠ dst) :
    getBucket (stealState st j src dst) x = getBucket st x := by
  unfold stealState
  rw [getBucket_set_ne h2, getBucket_set_ne h1]

theorem HASH_lt (bn : Nat) : HASH bn < NBUCKET := Nat.mod_lt _ (by decide)

theorem otherBuckets_lt {bid k : Nat} (hk : k ∈ otherBuckets bid) : k < NBUCKET := by
  rcases List.mem_map.1 hk with ⟨t, _, ht⟩
  rw [← ht]
  exact Nat.mod_lt _ (by decide)

theorem otherBuckets_ne {bid k : Nat} (hbid : bid < NBUCKET) (hk : k ∈ otherBuckets bid) :
    k ≠ bid := by
  rcases List.mem_map.1 hk with ⟨t, htmem, ht⟩
  have htlt : t < NBUCKET - 1 := List.mem_range.1 htmem
  intro he
  rw [he] at ht
  have hbmod : bid % NBUCKET = bid := Nat.mod_eq_of_lt hbid
  have hmodeq : (bid + (1 + t)) % NBUCKET = bid % NBUCKET := by
    rw [hbmod, ← Nat.add_assoc]
    exact ht
  have hdvd : NBUCKET ∣ (bid + (1 + t)) - bid :=
    (Nat.modEq_iff_dvd' (Nat.le_add_right _ _)).1 hmodeq.symm
  rw [Nat.add_sub_cancel_left] at hdvd
  have := Nat.le_of_dvd (by omega) hdvd
  unfold NBUCKET at htlt this
  omega

theorem bget_hit {st : Cache} {d bn i : Nat}
    (h : scanKey st.bufs d bn (getBucket st (HASH bn)) = some i) :
    bget st d bn = some (bumpRef st i, i) := by
  simp only [bget, h]

theorem bget_evict {st : Cache} {d bn j m : Nat}
    (hk : scanKey st.bufs d bn (getBucket st (HASH bn)) = none)
    (he : scanEvict st.bufs (getBucket st (HASH bn)) none = some (j, m)) :
    bget st d bn = some (repurposeAt st j d bn, j) := by
  simp only [bget, hk, he]

theorem bget_steal {st : Cache} {d bn : Nat}
    (hk : scanKey st.bufs d bn (getBucket st (HASH bn)) = none)
    (he : scanEvict st.bufs (getBucket st (HASH bn)) none = none) :
    bget st d bn = stealLoop st d bn (HASH bn) (otherBuckets (HASH bn)) := by
  simp only [bget, hk, he]

theorem stealLoop_none {st : Cache} {d bn bid : Nat} : ∀ {ks : List Nat},
    (∀ k ∈ ks, scanEvict st.bufs (getBucket st k) none = none) →
    stealLoop st d bn bid ks = none := by
  intro ks
  induction ks with
  | nil => intro _; rfl
  | cons k rest ih =>
    intro h
    simp only [stealLoop, h k (List.mem_cons_self k rest)]
    exact ih (fun x hx => h x (List.mem_cons_of_mem _ hx))

theorem stealLoop_found {st : Cache} {d bn bid j m k : Nat} {suf : List Nat} :
    ∀ {pre : List Nat},
    (∀ x ∈ pre, scanEvict st.bufs (getBucket st x) none = none) →
    scanEvict st.bufs (getBucket st k) none = some (j, m) →
    stealLoop st d bn bid (pre ++ k :: suf) =
      some (stealState (repurposeAt st j d bn) j k bid, j) := by
  intro pre
  induction pre with
  | nil =>
    intro _ hk
    simp only [List.nil_append, stealLoop, hk]
  | cons x rest ih =>
    intro hpre hk
    simp only [List.cons_append, stealLoop, hpre x (List.mem_cons_self x rest)]
    exact ih (fun y hy => hpre y (List.mem_cons_of_mem _ hy)) hk

theorem stealLoop_inv {st : Cache} {d bn bid : Nat} {st' : Cache} {j : Nat} :
    ∀ {ks : List Nat},
    stealLoop st d bn bid ks = some (st', j) →
    ∃ k m, k ∈ ks ∧ scanEvict st.bufs (getBucket st k) none = some (j, m) ∧
      st' = stealState (repurposeAt st j d bn) j k bid := by
  intro ks
  induction ks with
  | nil => intro h; simp [stealLoop] at h
  | cons k rest ih =>
    intro h
    cases hk : scanEvict st.bufs (getBucket st k) none with
    | none =>
      simp only [stealLoop, hk] at h
      rcases ih h with ⟨k', m, hmem, hsc, hst⟩
      exact ⟨k', m, List.mem_cons_of_mem _ hmem, hsc, hst⟩
    | some jm =>
      rcases jm with ⟨j0, m0⟩
      simp only [stealLoop, hk, Option.some.injEq, Prod.mk.injEq] at h
      rcases h with ⟨hst, hj⟩
      subst hj
      exact ⟨k, m0, List.mem_cons_self k rest, hk, hst.symm⟩

/-- Full inversion of `bget`: one of the three paths produced the result. -/
theorem bget_inv {st : Cache} {d bn : Nat} {st' : Cache} {r : Nat}
    (h : bget st d bn = some (st', r)) :
    (scanKey st.bufs d bn (getBucket st (HASH bn)) = some r ∧ st' = bumpRef st r)
    ∨ (scanKey st.bufs d bn (getBucket st (HASH bn)) = none ∧
        (∃ m, scanEvict st.bufs (getBucket st (HASH bn)) none = some (r, m)) ∧
        st' = repurposeAt st r d bn)
    ∨ (scanKey st.bufs d bn (getBucket st (HASH bn)) = none ∧
        scanEvict st.bufs (getBucket st (HASH bn)) none = none ∧
        ∃ k m, k ∈ otherBuckets (HASH bn) ∧
          scanEvict st.bufs (getBucket st k) none = some (r, m) ∧
          st' = stealState (repurposeAt st r d bn) r k (HASH bn)) := by
  cases hk : scanKey st.bufs d bn (getBucket st (HASH bn)) with
  | some i =>
    rw [bget_hit hk, Option.some.injEq, Prod.mk.injEq] at h
    rcases h with ⟨hst, hi⟩
    subst hi
    exact Or.inl ⟨rfl, hst.symm⟩
  | none =>
    cases he : scanEvict st.bufs (getBucket st (HASH bn)) none with
    | some jm =>
      rcases jm with ⟨j, m⟩
      rw [bget_evict hk he, Option.some.injEq, Prod.mk.injEq] at h
      rcases h with ⟨hst, hj⟩
      subst hj
      exact Or.inr (Or.inl ⟨rfl, ⟨m, rfl⟩, hst.symm⟩)
    | none =>
      rw [bget_steal hk he] at h
      rcases stealLoop_inv h with ⟨k, m, hmem, hsc, hst⟩
      exact Or.inr (Or.inr ⟨rfl, rfl, k, m, hmem, hsc, hst⟩)

/-! ## Claim C2 -/

/-- C2 (amended): `acquire` (bget) never selects a buffer with
`refcnt > 0` for eviction or repurposing: across any call, every buffer
with `refcnt > 0` keeps its key, valid flag, contents, LRU stamp and
bucket membership unchanged, and keeps its refCount unchanged as well
*unless* it is the buffer returned by a cache hit, in which case exactly
its refCount is incremented.  (The unamended claim — that even the
refCount is always unchanged — fails on the hit path; see the
counterexample.) -/
theorem c2_no_eviction_of_held_buffers (st : Cache) (d bn : Nat) (st' : Cache) (r : Nat)
    (h : bget st d bn = some (st', r)) :
    ∀ i b, getBuf st i = some b → 0 < b.refcnt →
      ∃ b', getBuf st' i = some b' ∧ b'.dev = b.dev ∧ b'.blockno = b.blockno ∧
        b'.valid = b.valid ∧ b'.data = b.data ∧ b'.mticks = b.mticks ∧
        (b'.refcnt = b.refcnt ∨ (i = r ∧ b'.refcnt = uincr b.refcnt)) ∧
        (∀ k, i ∈ getBucket st' k ↔ i ∈ getBucket st k) := by
  intro i b hb hr
  rcases bget_inv h with ⟨hk, hst⟩ | ⟨hk, ⟨m, he⟩, hst⟩ |
      ⟨hk, he, k0, m, hmem, hsc, hst⟩
  · subst hst
    by_cases hir : i = r
    · subst hir
      refine ⟨{ b with refcnt := uincr b.refcnt }, ?_, rfl, rfl, rfl, rfl, rfl,
        Or.inr ⟨rfl, rfl⟩, fun k => Iff.rfl⟩
      exact modifyBuf_get_self _ hb
    · refine ⟨b, ?_, rfl, rfl, rfl, rfl, rfl, Or.inl rfl, fun k => Iff.rfl⟩
      unfold getBuf bumpRef
      rw [modifyBuf_get_ne _ (fun e => hir e.symm)]
      exact hb
  · subst hst
    rcases scanEvict_start he with ⟨pre, suf, bq, _, hq, hq0, _, _, _⟩
    have hir : i ≠ r := by
      intro e
      unfold getBuf at hb
      rw [e, hq] at hb
      injection hb with hbq
      rw [← hbq, hq0] at hr
      exact Nat.lt_irrefl 0 hr
    refine ⟨b, ?_, rfl, rfl, rfl, rfl, rfl, Or.inl rfl, fun k => Iff.rfl⟩
    unfold getBuf repurposeAt
    rw [modifyBuf_get_ne _ (fun e => hir e.symm)]
    exact hb
  · rcases scanEvict_start hsc with ⟨pre, suf, bq, _, hq, hq0, _, _, _⟩
    have hir : i ≠ r := by
      intro e
      unfold getBuf at hb
      rw [e, hq] at hb
      injection hb with hbq
      rw [← hbq, hq0] at hr
      exact Nat.lt_irrefl 0 hr
    have hkne : k0 ≠ HASH bn := otherBuckets_ne (HASH_lt bn) hmem
    have hbufs : st'.bufs = (repurposeAt st r d bn).bufs := by rw [hst]; rfl
    refine ⟨b, ?_, rfl, rfl, rfl, rfl, rfl, Or.inl rfl, ?_⟩
    · show st'.bufs.get? i = some b
      rw [hbufs]
      unfold repurposeAt
      rw [modifyBuf_get_ne _ (fun e => hir e.symm)]
      exact hb
    · intro k
      subst hst
      have hrep : ∀ x, getBucket (repurposeAt st r d bn) x = getBucket st x :=
        fun x => rfl
      by_cases hk0 : k = k0
      · subst hk0
        rw [stealState_bucket_src hkne, hrep]
        exact List.mem_erase_of_ne hir
      · by_cases hkb : k = HASH bn
        · subst hkb
          rw [stealState_bucket_dst hkne, hrep]
          simp [List.mem_cons, hir]
        · rw [stealState_bucket_other hk0 hkb, hrep]

/-- A one-buffer cache: buffer 0 holds key (0, 0), valid, refcnt 1. -/
def c2state : Cache :=
  { bufs := [{ dev := 0, blockno := 0, valid := true, refcnt := 1, mticks := 0, data := 0 }],
    buckets := fun k => if k = 0 then [0] else [] }

/-- C2 counterexample: the claim as stated — *every* buffer with
`refCount > 0` keeps dev, blockno, valid, refCount and data unchanged
across `acquire` — is false: a cache hit on a held buffer increments that
buffer's refCount (bio.c line 95). -/
theorem c2_counterexample :
    ¬ (∀ (st : Cache) (d bn : Nat) (st' : Cache) (r : Nat),
        bget st d bn = some (st', r) →
        ∀ i b, getBuf st i = some b → 0 < b.refcnt →
          ∃ b', getBuf st' i = some b' ∧ b'.dev = b.dev ∧ b'.blockno = b.blockno ∧
            b'.valid = b.valid ∧ b'.refcnt = b.refcnt ∧ b'.data = b.data) := by
  intro hcl
  have hbg : bget c2state 0 0 = some (bumpRef c2state 0, 0) := rfl
  have hb : getBuf c2state 0 =
      some { dev := 0, blockno := 0, valid := true, refcnt := 1, mticks := 0, data := 0 } := rfl
  rcases hcl c2state 0 0 _ 0 hbg 0 _ hb (by decide) with ⟨b', hb', _, _, _, hrc, _⟩
  have h2 : getBuf (bumpRef c2state 0) 0 =
      some { dev := 0, blockno := 0, valid := true, refcnt := 2, mticks := 0, data := 0 } := rfl
  rw [h2] at hb'
  injection hb' with hb2
  rw [← hb2] at hrc
  exact absurd hrc (by decide)

/-- C2 witness: the amended theorem applied to the concrete one-buffer
cache: the held buffer keeps its key, validity and contents, and its
refCount change is exactly the hit increment. -/
theorem c2_no_eviction_of_held_buffers_witness :
    ∃ b', getBuf (bumpRef c2state 0) 0 = some b' ∧ b'.dev = 0 ∧ b'.blockno = 0 ∧
      b'.valid = true ∧ b'.data = 0 ∧
      (b'.refcnt = 1 ∨ (0 = 0 ∧ b'.refcnt = uincr 1)) := by
  rcases c2_no_eviction_of_held_buffers c2state 0 0 (bumpRef c2state 0) 0 rfl 0
      { dev := 0, blockno := 0, valid := true, refcnt := 1, mticks := 0, data := 0 }
      rfl (by decide) with ⟨b', h1, h2, h3, h4, h5, _, h7, _⟩
  exact ⟨b', h1, h2, h3, h4, h5, h7⟩

/-! ## Claim C3 -/

/-- C3: if the requested key is not in the target bucket and that bucket
holds at least one `refcnt = 0` buffer, `bget` repurposes *in place* the
bucket's `refcnt = 0` buffer with the smallest `mticks`, first in scan
order among ties (the bucket splits as `pre ++ j :: suf` with every
evictable buffer in `pre` strictly newer and every one in `suf` no older),
giving it the requested key, `valid = false`, `refcnt = 1`, and leaving
every bucket list unchanged. -/
theorem c3_in_bucket_lru_eviction (st : Cache) (d bn j m : Nat)
    (hk : scanKey st.bufs d bn (getBucket st (HASH bn)) = none)
    (he : scanEvict st.bufs (getBucket st (HASH bn)) none = some (j, m)) :
    bget st d bn = some (repurposeAt st j d bn, j) ∧
    ∃ b pre suf, st.bufs.get? j = some b ∧ b.refcnt = 0 ∧ b.mticks = m ∧
      getBucket st (HASH bn) = pre ++ j :: suf ∧
      (∀ i ∈ pre, ∀ bi, st.bufs.get? i = some bi → bi.refcnt = 0 → m < bi.mticks) ∧
      (∀ i ∈ suf, ∀ bi, st.bufs.get? i = some bi → bi.refcnt = 0 → m ≤ bi.mticks) ∧
      (repurposeAt st j d bn).bufs.get? j =
        some { b with dev := d, blockno := bn, refcnt := 1, valid := false } ∧
      (∀ i, i ≠ j → (repurposeAt st j d bn).bufs.get? i = st.bufs.get? i) ∧
      (repurposeAt st j d bn).buckets = st.buckets := by
  refine ⟨bget_evict hk he, ?_⟩
  rcases scanEvict_start he with ⟨pre, suf, bq, hsplit, hq, hq0, hqm, hpre, hsuf⟩
  refine ⟨bq, pre, suf, hq, hq0, hqm, hsplit, hpre, hsuf, ?_, ?_, rfl⟩
  · rw [show (repurposeAt st j d bn).bufs.get? j =
        some { bq with dev := d, blockno := bn, refcnt := uincr bq.refcnt, valid := false } from
        modifyBuf_get_self _ hq]
    rw [hq0]
    rfl
  · intro i hij
    exact modifyBuf_get_ne _ (fun e => hij e.symm)

/-- A 13-bucket cache whose bucket 0 holds three evictable buffers with
distinct keys hashing to 0 and LRU stamps 5, 3, 9 in scan order. -/
def c3state : Cache :=
  { bufs := [{ dev := 1, blockno := 0, valid := true, refcnt := 0, mticks := 5, data := 10 },
             { dev := 1, blockno := 13, valid := true, refcnt := 0, mticks := 3, data := 11 },
             { dev := 1, blockno := 26, valid := true, refcnt := 0, mticks := 9, data := 12 }],
    buckets := fun k => if k = 0 then [0, 1, 2] else [] }

/-- C3 witness: on a fully populated bucket of refcnt-0 buffers, a request
for the fresh key (1, 39) evicts the oldest (`mticks = 3`) buffer, index
1, repurposing it in place. -/
theorem c3_in_bucket_lru_eviction_witness :
    bget c3state 1 39 = some (repurposeAt c3state 1 1 39, 1) ∧
    (repurposeAt c3state 1 1 39).bufs.get? 1 =
      some { dev := 1, blockno := 39, valid := false, refcnt := 1, mticks := 3, data := 11 } := by
  rcases c3_in_bucket_lru_eviction c3state 1 39 1 3 rfl rfl with
    ⟨hbg, b, pre, suf, hb, _, _, _, _, _, hrep, _, _⟩
  refine ⟨hbg, ?_⟩
  have hb' : b = { dev := 1, blockno := 13, valid := true, refcnt := 0, mticks := 3, data := 11 } := by
    rw [show c3state.bufs.get? 1 =
        some { dev := 1, blockno := 13, valid := true, refcnt := 0, mticks := 3, data := 11 }
        from rfl] at hb
    injection hb with h
    exact h.symm
  rw [hb'] at hrep
  exact hrep

/-! ## Claim C4 -/

/-- C4: when the requested key is absent from the target bucket and the
target bucket has no `refcnt = 0` buffer, `bget` scans the other buckets
in the fixed cyclic order `HASH(bid+1), HASH(bid+2), ...`; in the first
bucket holding any `refcnt = 0` buffer (all earlier ones hold none, so the
victim is the oldest over all buffers seen) it selects the `refcnt = 0`
buffer with the smallest `mticks` (first in scan order among ties),
unlinks it from that bucket, relinks it at the head of the target bucket,
and repurposes it (key set, invalid, `refcnt = 1`); if no bucket holds a
`refcnt = 0` buffer, `bget` reaches `panic("bget: no buffers")` (modelled
as `none`) — no retry and no failure return. -/
theorem c4_cross_bucket_steal (st : Cache) (d bn : Nat)
    (hk : scanKey st.bufs d bn (getBucket st (HASH bn)) = none)
    (he : scanEvict st.bufs (getBucket st (HASH bn)) none = none) :
    ((∀ k ∈ otherBuckets (HASH bn), scanEvict st.bufs (getBucket st k) none = none) →
      bget st d bn = none)
    ∧ (∀ pre k suf, otherBuckets (HASH bn) = pre ++ k :: suf →
        (∀ x ∈ pre, scanEvict st.bufs (getBucket st x) none = none) →
        ∀ j m, scanEvict st.bufs (getBucket st k) none = some (j, m) →
        ∃ st' b, bget st d bn = some (st', j) ∧
          st.bufs.get? j = some b ∧ b.refcnt = 0 ∧ b.mticks = m ∧
          (∃ p2 s2, getBucket st k = p2 ++ j :: s2 ∧
            (∀ i ∈ p2, ∀ bi, st.bufs.get? i = some bi → bi.refcnt = 0 → m < bi.mticks) ∧
            (∀ i ∈ s2, ∀ bi, st.bufs.get? i = some bi → bi.refcnt = 0 → m ≤ bi.mticks)) ∧
          st'.bufs.get? j = some { b with dev := d, blockno := bn, refcnt := 1, valid := false } ∧
          (∀ i, i ≠ j → st'.bufs.get? i = st.bufs.get? i) ∧
          getBucket st' k = (getBucket st k).erase j ∧
          getBucket st' (HASH bn) = j :: getBucket st (HASH bn) ∧
          (∀ x, x ≠ k → x ≠ HASH bn → getBucket st' x = getBucket st x)) := by
  constructor
  · intro hall
    rw [bget_steal hk he]
    exact stealLoop_none hall
  · intro pre k suf hsplit hprenone j m hsc
    have hmem : k ∈ otherBuckets (HASH bn) := by
      rw [hsplit]
      exact List.mem_append_right _ (List.mem_cons_self _ _)
    have hkne : k ≠ HASH bn := otherBuckets_ne (HASH_lt bn) hmem
    have hbg : bget st d bn = some (stealState (repurposeAt st j d bn) j k (HASH bn), j) := by
      rw [bget_steal hk he, hsplit]
      exact stealLoop_found hprenone hsc
    rcases scanEvict_start hsc with ⟨p2, s2, bq, hsplit2, hq, hq0, hqm, hpre2, hsuf2⟩
    refine ⟨stealState (repurposeAt st j d bn) j k (HASH bn), bq, hbg, hq, hq0, hqm,
      ⟨p2, s2, hsplit2, hpre2, hsuf2⟩, ?_, ?_, ?_, ?_, ?_⟩
    · rw [show (stealState (repurposeAt st j d bn) j k (HASH bn)).bufs.get? j =
          some { bq with dev := d, blockno := bn, refcnt := uincr bq.refcnt, valid := false } from
          modifyBuf_get_self _ hq]
      rw [hq0]
      rfl
    · intro i hij
      show (repurposeAt st j d bn).bufs.get? i = st.bufs.get? i
      exact modifyBuf_get_ne _ (fun e => hij e.symm)
    · rw [stealState_bucket_src hkne]
      rfl
    · rw [stealState_bucket_dst hkne]
      rfl
    · intro x hxk hxb
      rw [stealState_bucket_other hxk hxb]
      rfl

/-- Two buffers: buffer 0 (held, refcnt 1) in bucket 0, buffer 1
(evictable, `mticks = 7`) in bucket 1. -/
def c4state : Cache :=
  { bufs := [{ dev := 0, blockno := 0, valid := true, refcnt := 1, mticks := 0, data := 5 },
             { dev := 0, blockno := 1, valid := true, refcnt := 0, mticks := 7, data := 6 }],
    buckets := fun k => if k = 0 then [0] else if k = 1 then [1] else [] }

/-- One held buffer and nothing evictable anywhere. -/
def c4stateB : Cache :=
  { bufs := [{ dev := 0, blockno := 0, valid := true, refcnt := 1, mticks := 0, data := 5 }],
    buckets := fun k => if k = 0 then [0] else [] }

/-- C4 witness: requesting the fresh key (0, 13) (target bucket 0, no
evictable buffer there) steals buffer 1 out of bucket 1 and relinks it at
the head of bucket 0; on the fully pinned cache the same request reaches
the fatal-exhaustion exit. -/
theorem c4_cross_bucket_steal_witness :
    bget c4stateB 0 13 = none ∧
    ∃ st', bget c4state 0 13 = some (st', 1) ∧
      st'.bufs.get? 1 =
        some { dev := 0, blockno := 13, valid := false, refcnt := 1, mticks := 7, data := 6 } ∧
      getBucket st' 1 = [] ∧ getBucket st' 0 = [1, 0] := by
  constructor
  · refine (c4_cross_bucket_steal c4stateB 0 13 rfl rfl).1 ?_
    intro k hkm
    have hk0 : k ≠ 0 :=
      fun e => otherBuckets_ne (HASH_lt 13) hkm (e.trans (rfl : (0 : Nat) = HASH 13))
    rw [show getBucket c4stateB k = [] from by simp [getBucket, c4stateB, hk0]]
    rfl
  · rcases (c4_cross_bucket_steal c4state 0 13 rfl rfl).2
        [] 1 [2, 3, 4, 5, 6, 7, 8, 9, 10, 11, 12] (by decide)
        (by intro x hx; simp at hx) 1 7 rfl with
      ⟨st', b, hbg, hb, _, _, _, hrep, _, hsrc, hdst, _⟩
    have hbv : b = { dev := 0, blockno := 1, valid := true, refcnt := 0, mticks := 7, data := 6 } := by
      rw [show c4state.bufs.get? 1 =
          some { dev := 0, blockno := 1, valid := true, refcnt := 0, mticks := 7, data := 6 }
          from rfl] at hb
      injection hb with h
      exact h.symm
    refine ⟨st', hbg, ?_, ?_, ?_⟩
    · rw [hbv] at hrep
      exact hrep
    · rw [hsrc]
      rfl
    · exact hdst.trans rfl

/-! ## Claim C1: the no-duplicate-caching invariant -/

theorem matchAt_true {bufs : List Buf} {d bn x : Nat} {b : Buf} (hb : bufs.get? x = some b)
    (h : matchAt bufs d bn x = true) : b.dev = d ∧ b.blockno = bn := by
  simp only [matchAt, hb, Bool.and_eq_true, beq_iff_eq] at h
  exact h

theorem matchAt_of_key {bufs : List Buf} {x : Nat} {b : Buf} (hb : bufs.get? x = some b) :
    matchAt bufs b.dev b.blockno x = true := by
  simp only [matchAt, hb]
  simp

theorem matchAt_false_of_ne {bufs : List Buf} {d bn x : Nat} {b : Buf}
    (hb : bufs.get? x = some b) (hne : ¬(b.dev = d ∧ b.blockno = bn)) :
    matchAt bufs d bn x = false := by
  cases hm : matchAt bufs d bn x
  · rfl
  · exact absurd (matchAt_true hb hm) hne

theorem matchAt_eq_of_get {bufs bufs' : List Buf} {d bn x : Nat}
    (h : bufs'.get? x = bufs.get? x) : matchAt bufs' d bn x = matchAt bufs d bn x := by
  unfold matchAt
  rw [h]

theorem matchAt_modify_self {bufs : List Buf} {i d bn : Nat} {b : Buf} {f : Buf → Buf}
    (hb : bufs.get? i = some b)
    (hdev : (f b).dev = b.dev) (hbn : (f b).blockno = b.blockno) :
    matchAt (modifyBuf bufs i f) d bn i = matchAt bufs d bn i := by
  unfold matchAt
  rw [modifyBuf_get_self f hb, hb]
  show ((f b).dev == d && (f b).blockno == bn) = (b.dev == d && b.blockno == bn)
  rw [hdev, hbn]

theorem matchAt_modify {bufs : List Buf} {i : Nat} {f : Buf → Buf}
    (hf : ∀ c, (f c).dev = c.dev ∧ (f c).blockno = c.blockno) (d bn x : Nat) :
    matchAt (modifyBuf bufs i f) d bn x = matchAt bufs d bn x := by
  by_cases hxi : i = x
  · subst hxi
    cases hb : bufs.get? i with
    | none =>
      apply matchAt_eq_of_get
      unfold modifyBuf
      rw [hb]
      exact hb
    | some b => exact matchAt_modify_self hb (hf b).1 (hf b).2
  · exact matchAt_eq_of_get (modifyBuf_get_ne f hxi)

/-- The reachability invariant of the cache.  `firstKey` packs the
no-duplicate property: every valid-or-in-use buffer is the *first* buffer
with its key in the scan order of its key's bucket — so two distinct
valid-or-in-use buffers can never share a key, and a lookup of a cached
key always lands on its unique holder. -/
structure WF (st : Cache) : Prop where
  nodupEach : ∀ k, (getBucket st k).Nodup
  disj : ∀ k k', k ≠ k' → ∀ i, i ∈ getBucket st k → i ∉ getBucket st k'
  firstKey : ∀ i b, st.bufs.get? i = some b → isCached b →
      scanKey st.bufs b.dev b.blockno (getBucket st (HASH b.blockno)) = some i

theorem wf_binit (nbuf : Nat) : WF (binit nbuf) := by
  refine ⟨?_, ?_, ?_⟩
  · intro k
    show (if k = 0 then (List.range nbuf).reverse else []).Nodup
    by_cases hk : k = 0
    · simp [hk, List.nodup_reverse, List.nodup_range]
    · simp [hk]
  · intro k k' hkk i hik hik'
    have h1 : i ∈ (if k = 0 then (List.range nbuf).reverse else []) := hik
    have h2 : i ∈ (if k' = 0 then (List.range nbuf).reverse else []) := hik'
    by_cases hk : k = 0
    · have hk' : ¬ k' = 0 := fun e => hkk (hk.trans e.symm)
      simp [hk'] at h2
    · simp [hk] at h1
  · intro i b hb hc
    have hmem : b ∈ List.replicate nbuf bufInit := List.get?_mem hb
    have hbe : b = bufInit := List.eq_of_mem_replicate hmem
    rcases hc with hv | hr
    · rw [hbe] at hv
      exact absurd hv (by decide)
    · rw [hbe] at hr
      exact absurd hr (by decide)

/-- WF is preserved by a point update that keeps every buffer's key, when
the updated buffer is already valid-or-in-use (brelse, bpin, bunpin). -/
theorem WF.modify_cached {st : Cache} (w : WF st) {i : Nat} {b : Buf} {f : Buf → Buf}
    (hb : st.bufs.get? i = some b) (hcached : isCached b)
    (hf : ∀ c, (f c).dev = c.dev ∧ (f c).blockno = c.blockno) :
    WF { st with bufs := modifyBuf st.bufs i f } := by
  refine ⟨fun k => w.nodupEach k, fun k k' hkk x hx hx' => w.disj k k' hkk x hx hx', ?_⟩
  intro x b' hb' hc'
  by_cases hxi : i = x
  · subst hxi
    have hb2 : (modifyBuf st.bufs i f).get? i = some (f b) := modifyBuf_get_self f hb
    rw [show ({ st with bufs := modifyBuf st.bufs i f } : Cache).bufs.get? i =
        some (f b) from hb2] at hb'
    injection hb' with hb'
    subst hb'
    show scanKey (modifyBuf st.bufs i f) (f b).dev (f b).blockno
        (getBucket st (HASH (f b).blockno)) = some i
    rw [(hf b).1, (hf b).2]
    rw [scanKey_congr (fun y _ => matchAt_modify hf b.dev b.blockno y)]
    exact w.firstKey i b hb hcached
  · have hb2 : (modifyBuf st.bufs i f).get? x = st.bufs.get? x := modifyBuf_get_ne f hxi
    rw [show ({ st with bufs := modifyBuf st.bufs i f } : Cache).bufs.get? x =
        st.bufs.get? x from hb2] at hb'
    show scanKey (modifyBuf st.bufs i f) b'.dev b'.blockno
        (getBucket st (HASH b'.blockno)) = some x
    rw [scanKey_congr (fun y _ => matchAt_modify hf b'.dev b'.blockno y)]
    exact w.firstKey x b' hb' hc'

/-- WF is preserved by a key-preserving point update of the buffer that a
key scan found (the hit increment, and bread's populate step). -/
theorem WF.modify_hit {st : Cache} (w : WF st) {d bn i : Nat} {f : Buf → Buf}
    (hscan : scanKey st.bufs d bn (getBucket st (HASH bn)) = some i)
    (hf : ∀ c, (f c).dev = c.dev ∧ (f c).blockno = c.blockno) :
    WF { st with bufs := modifyBuf st.bufs i f } := by
  refine ⟨fun k => w.nodupEach k, fun k k' hkk x hx hx' => w.disj k k' hkk x hx hx', ?_⟩
  intro x b' hb' hc'
  by_cases hxi : i = x
  · subst hxi
    rcases scanKey_some hscan with ⟨hmem, hmatch⟩
    cases hbi : st.bufs.get? i with
    | none =>
      unfold matchAt at hmatch
      rw [hbi] at hmatch
      cases hmatch
    | some b =>
      rcases matchAt_true hbi hmatch with ⟨hdev, hbn⟩
      have hb2 : (modifyBuf st.bufs i f).get? i = some (f b) := modifyBuf_get_self f hbi
      rw [show ({ st with bufs := modifyBuf st.bufs i f } : Cache).bufs.get? i =
          some (f b) from hb2] at hb'
      injection hb' with hb'
      subst hb'
      show scanKey (modifyBuf st.bufs i f) (f b).dev (f b).blockno
          (getBucket st (HASH (f b).blockno)) = some i
      rw [(hf b).1, (hf b).2, hdev, hbn]
      rw [scanKey_congr (fun y _ => matchAt_modify hf d bn y)]
      exact hscan
  · have hb2 : (modifyBuf st.bufs i f).get? x = st.bufs.get? x := modifyBuf_get_ne f hxi
    rw [show ({ st with bufs := modifyBuf st.bufs i f } : Cache).bufs.get? x =
        st.bufs.get? x from hb2] at hb'
    show scanKey (modifyBuf st.bufs i f) b'.dev b'.blockno
        (getBucket st (HASH b'.blockno)) = some x
    rw [scanKey_congr (fun y _ => matchAt_modify hf b'.dev b'.blockno y)]
    exact w.firstKey x b' hb' hc'
/-- WF is preserved by the in-bucket eviction path of `bget`. -/
theorem WF.evict {st : Cache} (w : WF st) {d bn j m : Nat}
    (hscan : scanKey st.bufs d bn (getBucket st (HASH bn)) = none)
    (he : scanEvict st.bufs (getBucket st (HASH bn)) none = some (j, m)) :
    WF (repurposeAt st j d bn) := by
  rcases scanEvict_start he with ⟨pre, suf, bq, hsplit, hq, hq0, _, _, _⟩
  have hjmem : j ∈ getBucket st (HASH bn) := by
    rw [hsplit]
    exact List.mem_append_right _ (List.mem_cons_self _ _)
  have hget : (repurposeAt st j d bn).bufs.get? j =
      some { bq with dev := d, blockno := bn, refcnt := uincr bq.refcnt, valid := false } :=
    modifyBuf_get_self _ hq
  have hne : ∀ x, x ≠ j → (repurposeAt st j d bn).bufs.get? x = st.bufs.get? x :=
    fun x hx => modifyBuf_get_ne _ (fun e => hx e.symm)
  refine ⟨fun k => w.nodupEach k, fun k k' hkk x hx hx' => w.disj k k' hkk x hx hx', ?_⟩
  intro x b' hb' hc'
  by_cases hxj : j = x
  · subst hxj
    rw [hget] at hb'
    injection hb' with hb'
    subst hb'
    show scanKey (repurposeAt st j d bn).bufs d bn (getBucket st (HASH bn)) = some j
    apply scanKey_first_new hscan hjmem
    · unfold matchAt
      rw [hget]
      simp
    · intro y _ hyj
      exact matchAt_eq_of_get (hne y hyj)
  · have hxj' : x ≠ j := fun e => hxj e.symm
    rw [hne x hxj'] at hb'
    have hfk := w.firstKey x b' hb' hc'
    by_cases hkey : b'.dev = d ∧ b'.blockno = bn
    · rw [hkey.1, hkey.2] at hfk
      rw [hscan] at hfk
      cases hfk
    · show scanKey (repurposeAt st j d bn).bufs b'.dev b'.blockno
          (getBucket st (HASH b'.blockno)) = some x
      apply scanKey_stable hfk
      · rw [matchAt_eq_of_get (hne x hxj')]
        exact matchAt_of_key hb'
      · intro y _ hyf
        by_cases hyj : j = y
        · subst hyj
          apply matchAt_false_of_ne hget
          intro hcontra
          exact hkey ⟨hcontra.1.symm, hcontra.2.symm⟩
        · rw [matchAt_eq_of_get (hne y (fun e => hyj e.symm))]
          exact hyf

/-- WF is preserved by the cross-bucket stealing path of `bget`. -/
theorem WF.steal {st : Cache} (w : WF st) {d bn j m k : Nat}
    (hmem : k ∈ otherBuckets (HASH bn))
    (hscan : scanKey st.bufs d bn (getBucket st (HASH bn)) = none)
    (hsc : scanEvict st.bufs (getBucket st k) none = some (j, m)) :
    WF (stealState (repurposeAt st j d bn) j k (HASH bn)) := by
  have hkne : k ≠ HASH bn := otherBuckets_ne (HASH_lt bn) hmem
  rcases scanEvict_start hsc with ⟨pre, suf, bq, hsplit, hq, hq0, _, _, _⟩
  have hjmem : j ∈ getBucket st k := by
    rw [hsplit]
    exact List.mem_append_right _ (List.mem_cons_self _ _)
  have hjnd : j ∉ getBucket st (HASH bn) := w.disj k (HASH bn) hkne j hjmem
  have hget : (repurposeAt st j d bn).bufs.get? j =
      some { bq with dev := d, blockno := bn, refcnt := uincr bq.refcnt, valid := false } :=
    modifyBuf_get_self _ hq
  have hne : ∀ x, x ≠ j → (repurposeAt st j d bn).bufs.get? x = st.bufs.get? x :=
    fun x hx => modifyBuf_get_ne _ (fun e => hx e.symm)
  have hbsrc : getBucket (stealState (repurposeAt st j d bn) j k (HASH bn)) k =
      (getBucket st k).erase j := stealState_bucket_src hkne
  have hbdst : getBucket (stealState (repurposeAt st j d bn) j k (HASH bn)) (HASH bn) =
      j :: getBucket st (HASH bn) := stealState_bucket_dst hkne
  have hboth : ∀ x, x ≠ k → x ≠ HASH bn →
      getBucket (stealState (repurposeAt st j d bn) j k (HASH bn)) x = getBucket st x :=
    fun x h1 h2 => stealState_bucket_other h1 h2
  refine ⟨?_, ?_, ?_⟩
  · intro x
    by_cases hxk : k = x
    · subst hxk
      rw [hbsrc]
      exact (w.nodupEach k).erase j
    · by_cases hxb : x = HASH bn
      · subst hxb
        rw [hbdst]
        exact List.nodup_cons.2 ⟨hjnd, w.nodupEach _⟩
      · rw [hboth x (fun e => hxk e.symm) hxb]
        exact w.nodupEach x
  · have hmap : ∀ x y, y ∈ getBucket (stealState (repurposeAt st j d bn) j k (HASH bn)) x →
        (y ∈ getBucket st x ∧ (x = k → y ≠ j)) ∨ (x = HASH bn ∧ y = j) := by
      intro x y hy
      by_cases hxk : k = x
      · subst hxk
        rw [hbsrc] at hy
        refine Or.inl ⟨List.mem_of_mem_erase hy, fun _ he => ?_⟩
        subst he
        exact ((w.nodupEach k).mem_erase_iff.1 hy).1 rfl
      · by_cases hxb : x = HASH bn
        · subst hxb
          rw [hbdst] at hy
          rcases List.mem_cons.1 hy with he | hm
          · exact Or.inr ⟨rfl, he⟩
          · exact Or.inl ⟨hm, fun hkk => absurd hkk.symm hkne⟩
        · rw [hboth x (fun e => hxk e.symm) hxb] at hy
          exact Or.inl ⟨hy, fun e => absurd e (fun ee => hxk ee.symm)⟩
    intro k1 k2 h12 y hy1 hy2
    rcases hmap k1 y hy1 with ⟨h1, h1k⟩ | ⟨hb1, he1⟩
    · rcases hmap k2 y hy2 with ⟨h2, h2k⟩ | ⟨hb2, he2⟩
      · exact w.disj k1 k2 h12 y h1 h2
      · rw [he2] at h1 h1k
        by_cases hk1 : k1 = k
        · exact h1k hk1 rfl
        · exact w.disj k1 k hk1 j h1 hjmem
    · rcases hmap k2 y hy2 with ⟨h2, h2k⟩ | ⟨hb2, he2⟩
      · rw [he1] at h2 h2k
        by_cases hk2 : k2 = k
        · exact h2k hk2 rfl
        · exact w.disj k2 k hk2 j h2 hjmem
      · exact h12 (hb1.trans hb2.symm)
  · intro x b' hb' hc'
    by_cases hxj : j = x
    · subst hxj
      rw [show (stealState (repurposeAt st j d bn) j k (HASH bn)).bufs.get? j =
          some { bq with dev := d, blockno := bn, refcnt := uincr bq.refcnt, valid := false }
          from hget] at hb'
      injection hb' with hb'
      subst hb'
      show scanKey (repurposeAt st j d bn).bufs d bn
          (getBucket (stealState (repurposeAt st j d bn) j k (HASH bn)) (HASH bn)) = some j
      rw [hbdst]
      have hmj : matchAt (repurposeAt st j d bn).bufs d bn j = true := by
        unfold matchAt
        rw [hget]
        simp
      simp [scanKey, hmj]
    · have hxj' : x ≠ j := fun e => hxj e.symm
      rw [show (stealState (repurposeAt st j d bn) j k (HASH bn)).bufs.get? x =
          st.bufs.get? x from hne x hxj'] at hb'
      have hfk := w.firstKey x b' hb' hc'
      by_cases hkey : b'.dev = d ∧ b'.blockno = bn
      · rw [hkey.1, hkey.2] at hfk
        rw [hscan] at hfk
        cases hfk
      · have hmatch' : matchAt (repurposeAt st j d bn).bufs b'.dev b'.blockno x = true := by
          rw [matchAt_eq_of_get (hne x hxj')]
          exact matchAt_of_key hb'
        have hjfalse : matchAt (repurposeAt st j d bn).bufs b'.dev b'.blockno j = false := by
          apply matchAt_false_of_ne hget
          intro hcontra
          exact hkey ⟨hcontra.1.symm, hcontra.2.symm⟩
        have hpres : ∀ y, y ≠ j →
            matchAt (repurposeAt st j d bn).bufs b'.dev b'.blockno y =
              matchAt st.bufs b'.dev b'.blockno y :=
          fun y hy => matchAt_eq_of_get (hne y hy)
        by_cases hkb : HASH b'.blockno = k
        · show scanKey (repurposeAt st j d bn).bufs b'.dev b'.blockno
              (getBucket (stealState (repurposeAt st j d bn) j k (HASH bn))
                (HASH b'.blockno)) = some x
          rw [hkb, hbsrc]
          rw [hkb] at hfk
          exact scanKey_erase hfk hxj' hjfalse (fun y _ hyj => hpres y hyj)
        · by_cases hkbd : HASH b'.blockno = HASH bn
          · show scanKey (repurposeAt st j d bn).bufs b'.dev b'.blockno
                (getBucket (stealState (repurposeAt st j d bn) j k (HASH bn))
                  (HASH b'.blockno)) = some x
            rw [hkbd, hbdst]
            rw [hkbd] at hfk
            have hred : scanKey (repurposeAt st j d bn).bufs b'.dev b'.blockno
                (j :: getBucket st (HASH bn)) =
                scanKey (repurposeAt st j d bn).bufs b'.dev b'.blockno
                  (getBucket st (HASH bn)) := by
              simp only [scanKey, hjfalse, Bool.false_eq_true, if_false]
            rw [hred]
            apply scanKey_stable hfk hmatch'
            intro y hymem hyf
            have hyj : y ≠ j := fun e => hjnd (e ▸ hymem)
            rw [hpres y hyj]
            exact hyf
          · show scanKey (repurposeAt st j d bn).bufs b'.dev b'.blockno
                (getBucket (stealState (repurposeAt st j d bn) j k (HASH bn))
                  (HASH b'.blockno)) = some x
            rw [hboth _ hkb hkbd]
            apply scanKey_stable hfk hmatch'
            intro y hymem hyf
            have hyj : y ≠ j := fun e => by
              subst e
              exact w.disj k (HASH b'.blockno) (fun ee => hkb ee.symm) y hjmem hymem
            rw [hpres y hyj]
            exact hyf

/-- The hit increment keeps every buffer's key (stated applied, so that
the function is pinned when used). -/
theorem bump_keeps_key : ∀ c : Buf,
    ((fun b : Buf => { b with refcnt := uincr b.refcnt }) c).dev = c.dev ∧
    ((fun b : Buf => { b with refcnt := uincr b.refcnt }) c).blockno = c.blockno :=
  fun c => ⟨rfl, rfl⟩

theorem WF.preserve_bget {st : Cache} (w : WF st) {d bn : Nat} {st' : Cache} {r : Nat}
    (h : bget st d bn = some (st', r)) : WF st' := by
  rcases bget_inv h with ⟨hscan, hst⟩ | ⟨hscan, ⟨m, he⟩, hst⟩ |
      ⟨hscan, _, k, m, hmem, hsc, hst⟩
  · subst hst
    exact w.modify_hit hscan (fun c => ⟨rfl, rfl⟩)
  · subst hst
    exact w.evict hscan he
  · subst hst
    exact w.steal hmem hscan hsc

/-- After a successful `bget st d bn = (st', r)`, a key scan of the
(new) target bucket finds exactly `r`. -/
theorem bget_found {st : Cache} (w : WF st) {d bn : Nat} {st' : Cache} {r : Nat}
    (h : bget st d bn = some (st', r)) :
    scanKey st'.bufs d bn (getBucket st' (HASH bn)) = some r := by
  rcases bget_inv h with ⟨hscan, hst⟩ | ⟨hscan, ⟨m, he⟩, hst⟩ |
      ⟨hscan, _, k, m, hmem, hsc, hst⟩
  · subst hst
    have hcg : scanKey (modifyBuf st.bufs r (fun b => { b with refcnt := uincr b.refcnt })) d bn
        (getBucket st (HASH bn)) = scanKey st.bufs d bn (getBucket st (HASH bn)) :=
      scanKey_congr (fun y _ => matchAt_modify bump_keeps_key d bn y)
    show scanKey (modifyBuf st.bufs r (fun b => { b with refcnt := uincr b.refcnt })) d bn
        (getBucket st (HASH bn)) = some r
    rw [hcg]
    exact hscan
  · subst hst
    rcases scanEvict_start he with ⟨pre, suf, bq, hsplit, hq, _, _, _, _⟩
    have hjmem : r ∈ getBucket st (HASH bn) := by
      rw [hsplit]
      exact List.mem_append_right _ (List.mem_cons_self _ _)
    have hget : (repurposeAt st r d bn).bufs.get? r =
        some { bq with dev := d, blockno := bn, refcnt := uincr bq.refcnt, valid := false } :=
      modifyBuf_get_self _ hq
    show scanKey (repurposeAt st r d bn).bufs d bn (getBucket st (HASH bn)) = some r
    apply scanKey_first_new hscan hjmem
    · unfold matchAt
      rw [hget]
      simp
    · intro y _ hyj
      exact matchAt_eq_of_get (modifyBuf_get_ne _ (fun e => hyj e.symm))
  · subst hst
    have hkne : k ≠ HASH bn := otherBuckets_ne (HASH_lt bn) hmem
    rcases scanEvict_start hsc with ⟨pre, suf, bq, hsplit, hq, _, _, _, _⟩
    have hget : (repurposeAt st r d bn).bufs.get? r =
        some { bq with dev := d, blockno := bn, refcnt := uincr bq.refcnt, valid := false } :=
      modifyBuf_get_self _ hq
    show scanKey (repurposeAt st r d bn).bufs d bn
        (getBucket (stealState (repurposeAt st r d bn) r k (HASH bn)) (HASH bn)) = some r
    rw [stealState_bucket_dst hkne]
    have hmj : matchAt (repurposeAt st r d bn).bufs d bn r = true := by
      unfold matchAt
      rw [hget]
      simp
    simp [scanKey, hmj]

theorem WF.preserve_bread {st : Cache} (w : WF st) {disk : Nat → Nat → Nat} {d bn : Nat}
    {st' : Cache} {i r : Nat} (h : bread st disk d bn = some (st', i, r)) : WF st' := by
  cases hg : bget st d bn with
  | none =>
    simp only [bread, hg] at h
    cases h
  | some p =>
    rcases p with ⟨st1, i1⟩
    have w1 : WF st1 := w.preserve_bget hg
    cases hb1 : getBuf st1 i1 with
    | none =>
      simp only [bread, hg, hb1] at h
      cases h
    | some b1 =>
      by_cases hv : b1.valid = true
      · simp only [bread, hg, hb1, if_pos hv, Option.some.injEq, Prod.mk.injEq] at h
        rcases h with ⟨hst, _, _⟩
        rw [← hst]
        exact w1
      · simp only [bread, hg, hb1, if_neg hv, Option.some.injEq, Prod.mk.injEq] at h
        rcases h with ⟨hst, _, _⟩
        rw [← hst]
        exact w1.modify_hit (bget_found w hg) (fun c => ⟨rfl, rfl⟩)

/-- The brelse update keeps every buffer's key. -/
theorem brelse_keeps_key (t : Nat) (c : Buf) :
    ((fun b : Buf =>
        { b with refcnt := udecr b.refcnt,
                 mticks := if udecr b.refcnt = 0 then t else b.mticks }) c).dev = c.dev ∧
    ((fun b : Buf =>
        { b with refcnt := udecr b.refcnt,
                 mticks := if udecr b.refcnt = 0 then t else b.mticks }) c).blockno = c.blockno :=
  ⟨rfl, rfl⟩

/-- The bunpin update keeps every buffer's key. -/
theorem unpin_keeps_key (c : Buf) :
    ((fun b : Buf => { b with refcnt := udecr b.refcnt }) c).dev = c.dev ∧
    ((fun b : Buf => { b with refcnt := udecr b.refcnt }) c).blockno = c.blockno :=
  ⟨rfl, rfl⟩

/-- Every reachable cache state satisfies the invariant. -/
theorem reach_wf {nbuf : Nat} {st : Cache} (h : Reach nbuf st) : WF st := by
  induction h with
  | init => exact wf_binit nbuf
  | step_bread _ hb ih => exact ih.preserve_bread hb
  | step_brelse _ hb hr ih => exact ih.modify_cached hb (Or.inr hr) (brelse_keeps_key _)
  | step_bpin _ hb hr ih => exact ih.modify_cached hb (Or.inr hr) bump_keeps_key
  | step_bunpin _ hb hr ih => exact ih.modify_cached hb (Or.inr hr) unpin_keeps_key

/-- C1: in every reachable cache state, at most one valid-or-in-use buffer
holds a given (device, blockNumber) key; and whenever the key is cached
(some valid-or-in-use buffer holds it), `bget` for that key returns
exactly that buffer through the bucket scan, incrementing its refCount,
repurposing no second buffer, and leaving every other buffer and all
bucket lists unchanged. -/
theorem c1_unique_key_and_hit {nbuf : Nat} {st : Cache} (h : Reach nbuf st) :
    (∀ i j bi bj, getBuf st i = some bi → getBuf st j = some bj →
      isCached bi → isCached bj → bi.dev = bj.dev → bi.blockno = bj.blockno → i = j)
    ∧ (∀ d bn i b, getBuf st i = some b → isCached b → b.dev = d → b.blockno = bn →
        bget st d bn = some (bumpRef st i, i) ∧
        getBuf (bumpRef st i) i = some { b with refcnt := uincr b.refcnt } ∧
        (∀ x, x ≠ i → getBuf (bumpRef st i) x = getBuf st x) ∧
        (bumpRef st i).buckets = st.buckets) := by
  have w := reach_wf h
  constructor
  · intro i j bi bj hbi hbj hci hcj hdev hbn
    have h1 := w.firstKey i bi hbi hci
    have h2 := w.firstKey j bj hbj hcj
    rw [← hdev, ← hbn] at h2
    rw [h1] at h2
    exact Option.some.inj h2
  · intro d bn i b hb hc hdev hbn
    have h1 := w.firstKey i b hb hc
    rw [hdev, hbn] at h1
    refine ⟨bget_hit h1, ?_, ?_, rfl⟩
    · exact modifyBuf_get_self _ hb
    · intro x hx
      exact modifyBuf_get_ne _ (fun e => hx e.symm)

/-- The reachable state after `bread (binit 2) disk 0 0` with
`disk = fun _ _ => 7`: buffer 1 (head of bucket 0's scan order) was hit
on the initial key (0, 0), populated from storage, and is now held. -/
def c1S1 : Cache :=
  { bufs := [bufInit, { dev := 0, blockno := 0, valid := true, refcnt := 1, mticks := 0, data := 7 }],
    buckets := fun k => if k = 0 then [1, 0] else [] }

/-- C1 witness: in the reachable state `c1S1`, key (0, 0) is cached in
buffer 1, and `bget` for it returns buffer 1 with refCount bumped 1 → 2. -/
theorem c1_unique_key_and_hit_witness :
    bget c1S1 0 0 = some (bumpRef c1S1 1, 1) ∧
    getBuf (bumpRef c1S1 1) 1 =
      some { dev := 0, blockno := 0, valid := true, refcnt := 2, mticks := 0, data := 7 } := by
  have hreach : Reach 2 c1S1 :=
    Reach.step_bread Reach.init
      (show bread (binit 2) (fun _ _ => 7) 0 0 = some (c1S1, 1, 1) from rfl)
  rcases (c1_unique_key_and_hit hreach).2 0 0 1
      { dev := 0, blockno := 0, valid := true, refcnt := 1, mticks := 0, data := 7 }
      rfl (Or.inl rfl) rfl rfl with ⟨h1, h2, _, _⟩
  exact ⟨h1, h2.trans rfl⟩

/-! ## Claim C8 -/

/-- On a miss (key not in the target bucket), the buffer `bget` returns is
marked invalid (both eviction paths set `valid = 0`). -/
theorem bget_miss_invalid {st : Cache} {d bn : Nat} {st2 : Cache} {j : Nat}
    (hk : scanKey st.bufs d bn (getBucket st (HASH bn)) = none)
    (h : bget st d bn = some (st2, j)) :
    ∃ b2, st2.bufs.get? j = some b2 ∧ b2.valid = false := by
  rcases bget_inv h with ⟨hscan, _⟩ | ⟨_, ⟨m, he⟩, hst⟩ | ⟨_, _, k, m, _, hsc, hst⟩
  · rw [hscan] at hk
    cases hk
  · subst hst
    rcases scanEvict_start he with ⟨_, _, bq, _, hq, _, _, _, _⟩
    exact ⟨_, modifyBuf_get_self _ hq, rfl⟩
  · subst hst
    rcases scanEvict_start hsc with ⟨_, _, bq, _, hq, _, _, _, _⟩
    exact ⟨_, modifyBuf_get_self _ hq, rfl⟩

/-- C8: committing a buffer holding key (d, bn) makes storage hold its
contents at that key; afterwards, from any cache state in which the key is
not cached, `bread` for the key misses, performs exactly one storage read
(`r = 1`), and returns a valid buffer whose data equals the committed
contents. -/
theorem c8_roundtrip (disk : Nat → Nat → Nat) (bw : Buf) (d bn : Nat)
    (hd : bw.dev = d) (hb : bw.blockno = bn) :
    bwrite disk bw d bn = bw.data ∧
    ∀ st, scanKey st.bufs d bn (getBucket st (HASH bn)) = none →
      ∀ st' j r, bread st (bwrite disk bw) d bn = some (st', j, r) →
        r = 1 ∧ ∃ b', st'.bufs.get? j = some b' ∧ b'.valid = true ∧ b'.data = bw.data := by
  constructor
  · unfold bwrite
    rw [if_pos ⟨hd.symm, hb.symm⟩]
  · intro st hk st' j r h
    cases hg : bget st d bn with
    | none =>
      simp only [bread, hg] at h
      cases h
    | some p =>
      rcases p with ⟨st2, j2⟩
      rcases bget_miss_invalid hk hg with ⟨b2, hb2, hv2⟩
      have hgb : getBuf st2 j2 = some b2 := hb2
      have hv2' : ¬ (b2.valid = true) := by
        rw [hv2]
        exact Bool.false_ne_true
      simp only [bread, hg, hgb, if_neg hv2', Option.some.injEq, Prod.mk.injEq] at h
      rcases h with ⟨hst, hj, hr⟩
      subst hst
      subst hj
      refine ⟨hr.symm, _, modifyBuf_get_self _ hb2, rfl, ?_⟩
      show bwrite disk bw d bn = bw.data
      unfold bwrite
      rw [if_pos ⟨hd.symm, hb.symm⟩]

/-- The committed buffer of the C8 witness: key (1, 13), contents 42. -/
def c8buf : Buf :=
  { dev := 1, blockno := 13, valid := true, refcnt := 1, mticks := 0, data := 42 }

/-- The state after `bread c4state (bwrite disk c8buf) 1 13`: buffer 1 was
stolen into bucket 0, repurposed for key (1, 13) and populated with the
committed contents fresh from storage. -/
def c8post : Cache :=
  { bufs := [{ dev := 0, blockno := 0, valid := true, refcnt := 1, mticks := 0, data := 5 },
             { dev := 1, blockno := 13, valid := true, refcnt := 1, mticks := 7, data := 42 }],
    buckets := fun x => if x = 0 then [1, 0] else if x = 1 then [] else c4state.buckets x }

/-- C8 witness: with storage initially all zero, committing contents 42 at
key (1, 13) and re-acquiring that key on a cache where it is uncached
performs exactly one read and yields data 42. -/
theorem c8_roundtrip_witness :
    bwrite (fun _ _ => 0) c8buf 1 13 = 42 ∧
    (1 : Nat) = 1 ∧
    ∃ b', c8post.bufs.get? 1 = some b' ∧ b'.valid = true ∧ b'.data = 42 := by
  have h := c8_roundtrip (fun _ _ => 0) c8buf 1 13 rfl rfl
  have h2 := h.2 c4state rfl c8post 1 1 rfl
  exact ⟨h.1, h2⟩

/-! ## Claim C9: lock discipline of the miss path -/

theorem lockOk_stealTrace {st : Cache} {bid : Nat} : ∀ {ks : List Nat},
    (∀ k ∈ ks, k ≠ bid) → lockOk bid [bid] true (stealTrace st bid ks) = true := by
  intro ks
  induction ks with
  | nil =>
    intro _
    simp [stealTrace, lockOk, bstep, gstep]
  | cons k rest ih =>
    intro hk
    have hkbid : k ≠ bid := hk k (List.mem_cons_self k rest)
    cases hsc : scanEvict st.bufs (getBucket st k) none with
    | some jm =>
      rcases jm with ⟨j, m⟩
      simp [stealTrace, hsc, lockOk, bstep, gstep, hkbid, List.erase_cons_head]
    | none =>
      simp only [stealTrace, hsc, lockOk, bstep, gstep]
      simp [hkbid, List.erase_cons_head]
      exact ih (fun x hx => hk x (List.mem_cons_of_mem _ hx))

theorem missAcqOk_stealTrace {st : Cache} {bid : Nat} : ∀ {ks : List Nat},
    missAcqOk true true (stealTrace st bid ks) = true := by
  intro ks
  induction ks with
  | nil => simp [stealTrace, missAcqOk]
  | cons k rest ih =>
    cases hsc : scanEvict st.bufs (getBucket st k) none with
    | some jm =>
      rcases jm with ⟨j, m⟩
      simp [stealTrace, hsc, missAcqOk]
    | none =>
      simp only [stealTrace, hsc, missAcqOk]
      simp only [Bool.not_true, Bool.false_or, Bool.true_and]
      exact ih

/-- C9 (amended): along the lock/event trace of any `bget` call, every
bucket-lock acquisition performed after the global eviction lock is first
taken happens while the global lock is held (global-then-bucket on the
miss path, as claimed); but the target bucket's lock is acquired right
after the global lock and held until the eviction completes, each
candidate source bucket is locked *on top of it* (so up to two bucket
locks are held at once, always including the target's), the victim is
unlinked while both are held, and the source lock is released before the
victim is relinked into the target bucket (`lockOk` checks exactly this
stepwise).  The unamended claim — at most one bucket lock held at a time,
with the source lock released before the destination lock is taken — is
false; see the counterexample. -/
theorem c9_lock_discipline (st : Cache) (d bn : Nat) :
    lockOk (HASH bn) [] false (bgetTrace st d bn) = true ∧
    missAcqOk false false (bgetTrace st d bn) = true := by
  cases hk : scanKey st.bufs d bn (getBucket st (HASH bn)) with
  | some i =>
    constructor
    · simp [bgetTrace, hk, lockOk, bstep, gstep]
    · simp [bgetTrace, hk, missAcqOk]
  | none =>
    cases he : scanEvict st.bufs (getBucket st (HASH bn)) none with
    | some jm =>
      rcases jm with ⟨j, m⟩
      constructor
      · simp [bgetTrace, hk, he, lockOk, bstep, gstep]
      · simp [bgetTrace, hk, he, missAcqOk]
    | none =>
      constructor
      · simp only [bgetTrace, hk, he, List.cons_append, List.nil_append,
          lockOk, bstep, gstep]
        simp [List.erase_cons_head]
        exact lockOk_stealTrace (fun k hkm => otherBuckets_ne (HASH_lt bn) hkm)
      · simp only [bgetTrace, hk, he, List.cons_append, List.nil_append, missAcqOk]
        simp only [Bool.not_true, Bool.false_or, Bool.not_false, Bool.true_or,
          Bool.true_and]
        exact missAcqOk_stealTrace

/-- C9 counterexample: the claimed discipline — at most one bucket lock
held at any instant of `acquire` (which is what "the source bucket lock is
released before the destination bucket lock is taken" amounts to) — is
false: on a concrete state whose miss falls through to stealing, the trace
holds the target bucket's lock and a source bucket's lock simultaneously
(bio.c line 151 acquires `lock[i]` while `lock[bid]` from line 107 is
still held). -/
theorem c9_lock_discipline_counterexample :
    ¬ (∀ (st : Cache) (d bn : Nat), atMostOneBucket [] (bgetTrace st d bn) = true) := by
  intro hcl
  exact absurd (hcl c4state 0 13) (by decide)

/-! ## Claims C6 and C7: the page allocator -/

theorem udecr_pred {r : Nat} (h0 : 0 < r) (hM : r < UINTMOD) : udecr r = r - 1 := by
  simp only [udecr, UINTMOD] at *
  omega

theorem allocRun_spec : ∀ (n : Nat) (st : KMem), st.freelist.length = n →
    (∀ idx, idx < n → ∃ a, (allocRun st (n + 1)).1.get? idx = some (some a)) ∧
    (allocRun st (n + 1)).1.get? n = some none := by
  intro n
  induction n with
  | zero =>
    intro st hlen
    have hfl : st.freelist = [] := List.length_eq_zero.1 hlen
    constructor
    · intro idx h
      exact absurd h (Nat.not_lt_zero idx)
    · simp [allocRun, kalloc, hfl]
  | succ n ih =>
    intro st hlen
    cases hfl : st.freelist with
    | nil =>
      rw [hfl] at hlen
      cases hlen
    | cons r rest =>
      rw [hfl] at hlen
      have hlen' : rest.length = n := Nat.succ.inj hlen
      have hst1 : (kalloc st).2.freelist = rest := by
        simp [kalloc, hfl]
      rcases ih (kalloc st).2 (by rw [hst1]; exact hlen') with ⟨ih1, ih2⟩
      constructor
      · intro idx hidx
        cases idx with
        | zero =>
          refine ⟨r, ?_⟩
          show ((allocRun st (n + 1 + 1)).1).get? 0 = some (some r)
          simp only [allocRun]
          simp [kalloc, hfl]
        | succ idx2 =>
          rcases ih1 idx2 (Nat.lt_of_succ_lt_succ hidx) with ⟨a, ha⟩
          refine ⟨a, ?_⟩
          show ((allocRun st (n + 1 + 1)).1).get? (idx2 + 1) = some (some a)
          simp only [allocRun]
          exact ha
      · show ((allocRun st (n + 1 + 1)).1).get? (n + 1) = some none
        simp only [allocRun]
        exact ih2

/-- C6: `kalloc` returns null iff the free list is empty (state unchanged,
not fatal); on success it pops exactly the head page, fills its contents
with the fixed nonzero junk byte 5, sets its refCount to 1 and touches no
other page; so with an N-page free list, of N+1 consecutive calls the
first N succeed and the last fails. -/
theorem c6_kalloc_pool (st : KMem) :
    ((kalloc st).1 = none ↔ st.freelist = []) ∧
    (st.freelist = [] → (kalloc st).2 = st) ∧
    (∀ r rest, st.freelist = r :: rest →
      (kalloc st).1 = some r ∧
      (kalloc st).2.freelist = rest ∧
      (kalloc st).2.mem (r / PGSIZE) = List.replicate PGSIZE 5 ∧
      (∀ x ∈ (kalloc st).2.mem (r / PGSIZE), x ≠ 0) ∧
      (kalloc st).2.ref (r / PGSIZE) = 1 ∧
      (∀ q, q ≠ r / PGSIZE → (kalloc st).2.ref q = st.ref q ∧ (kalloc st).2.mem q = st.mem q) ∧
      (kalloc st).2.kend = st.kend) ∧
    (∀ n, st.freelist.length = n →
      (∀ idx, idx < n → ∃ a, (allocRun st (n + 1)).1.get? idx = some (some a)) ∧
      (allocRun st (n + 1)).1.get? n = some none) := by
  refine ⟨?_, ?_, ?_, fun n hn => allocRun_spec n st hn⟩
  · cases hfl : st.freelist with
    | nil => simp [kalloc, hfl]
    | cons r rest => simp [kalloc, hfl]
  · intro hfl
    simp [kalloc, hfl]
  · intro r rest hfl
    refine ⟨by simp [kalloc, hfl], by simp [kalloc, hfl], ?_, ?_, ?_, ?_, by simp [kalloc, hfl]⟩
    · simp [kalloc, hfl]
    · intro x hx
      have : (kalloc st).2.mem (r / PGSIZE) = List.replicate PGSIZE 5 := by simp [kalloc, hfl]
      rw [this] at hx
      rw [List.eq_of_mem_replicate hx]
      decide
    · simp [kalloc, hfl]
    · intro q hq
      constructor
      · simp [kalloc, hfl, hq]
      · simp [kalloc, hfl, hq]

/-- The C6 witness pool: two free pages, no page referenced. -/
def c6km : KMem :=
  { freelist := [4096, 8192], ref := fun _ => 0, mem := fun _ => [], kend := 4096 }

/-- C6 witness: on the 2-page pool, the first allocation returns page
4096 scrubbed with refCount 1, and of three consecutive allocations the
first two succeed and the third fails. -/
theorem c6_kalloc_pool_witness :
    (kalloc c6km).1 = some 4096 ∧
    (kalloc c6km).2.freelist = [8192] ∧
    (kalloc c6km).2.ref 1 = 1 ∧
    (∃ a, (allocRun c6km 3).1.get? 0 = some (some a)) ∧
    (∃ a, (allocRun c6km 3).1.get? 1 = some (some a)) ∧
    (allocRun c6km 3).1.get? 2 = some none := by
  rcases c6_kalloc_pool c6km with ⟨_, _, h3, h4⟩
  rcases h3 4096 [8192] rfl with ⟨ha, hb, _, _, he, _, _⟩
  rcases h4 2 rfl with ⟨hi, hnone⟩
  exact ⟨ha, hb, he, hi 0 (by decide), hi 1 (by decide), hnone⟩

/-- C7: `kfree` panics exactly on a misaligned or out-of-range address;
otherwise it performs the uint decrement of the page's refCount (exactly
minus one whenever `0 < ref < 2^32`), and scrubs the page (junk byte 1)
and pushes it onto the free list iff the decremented count is 0 — when
the count is still nonzero, the free list and every page's contents are
unchanged.  No other page's refCount changes. -/
theorem c7_kfree (st : KMem) (pa : Nat) :
    (kfree st pa = none ↔ (pa % PGSIZE ≠ 0 ∨ pa < st.kend ∨ PHYSTOP ≤ pa)) ∧
    (∀ st', kfree st pa = some st' →
      st'.ref (pa / PGSIZE) = udecr (st.ref (pa / PGSIZE)) ∧
      (0 < st.ref (pa / PGSIZE) → st.ref (pa / PGSIZE) < UINTMOD →
        st'.ref (pa / PGSIZE) = st.ref (pa / PGSIZE) - 1) ∧
      (udecr (st.ref (pa / PGSIZE)) = 0 →
        st'.freelist = pa :: st.freelist ∧
        st'.mem (pa / PGSIZE) = List.replicate PGSIZE 1) ∧
      (udecr (st.ref (pa / PGSIZE)) ≠ 0 →
        st'.freelist = st.freelist ∧ ∀ q, st'.mem q = st.mem q) ∧
      (∀ q, q ≠ pa / PGSIZE → st'.ref q = st.ref q) ∧
      st'.kend = st.kend) := by
  by_cases hbad : pa % PGSIZE ≠ 0 ∨ pa < st.kend ∨ PHYSTOP ≤ pa
  · constructor
    · simp [kfree, hbad]
    · intro st' h
      rw [show kfree st pa = none from by simp [kfree, hbad]] at h
      cases h
  · constructor
    · simp only [kfree, if_neg hbad]
      constructor
      · intro h
        by_cases hz : udecr (st.ref (pa / PGSIZE)) = 0
        · rw [if_pos hz] at h
          cases h
        · rw [if_neg hz] at h
          cases h
      · intro h
        exact absurd h hbad
    · intro st' h
      simp only [kfree, if_neg hbad] at h
      by_cases hz : udecr (st.ref (pa / PGSIZE)) = 0
      · rw [if_pos hz] at h
        injection h with h
        subst h
        refine ⟨by simp, ?_, fun _ => ⟨rfl, by simp⟩, fun hnz => absurd hz hnz, ?_, rfl⟩
        · intro h0 hM
          simp [udecr_pred h0 hM]
        · intro q hq
          simp [hq]
      · rw [if_neg hz] at h
        injection h with h
        subst h
        refine ⟨by simp, ?_, fun hez => absurd hez hz, fun _ => ⟨rfl, fun q => rfl⟩, ?_, rfl⟩
        · intro h0 hM
          simp [udecr_pred h0 hM]
        · intro q hq
          simp [hq]

/-- The C7 witness state: page 2 (address 8192) has refCount 2, every
page's contents are `[7]`, nothing on the free list. -/
def c7km : KMem :=
  { freelist := [], ref := fun pn => if pn = 2 then 2 else 0, mem := fun _ => [7], kend := 4096 }

/-- The result of `kfree c7km 8192`: only the refCount of page 2 drops
2 → 1; contents and free list untouched. -/
def c7post : KMem :=
  { c7km with ref := fun q => if q = 2 then 1 else c7km.ref q }

/-- C7 witness: `kfree` at the misaligned address 5 is fatal; at 8192 it
decrements the refCount 2 → 1 and, the count being nonzero, leaves the
free list and the page contents untouched. -/
theorem c7_kfree_witness :
    kfree c7km 5 = none ∧
    kfree c7km 8192 = some c7post ∧
    c7post.ref 2 = 1 ∧ c7post.freelist = [] ∧ c7post.mem 2 = [7] := by
  have h5 := (c7_kfree c7km 5).1.2 (Or.inl (by decide))
  have hsome : kfree c7km 8192 = some c7post := rfl
  rcases (c7_kfree c7km 8192).2 c7post hsome with ⟨_, h2, _, h4, _, _⟩
  refine ⟨h5, hsome, ?_, ?_, rfl⟩
  · exact h2 (by decide) (by decide)
  · exact (h4 (by decide)).1

/-! ## Claims C5 and C10: copy-on-write resolution -/

theorem PGROUNDDOWN_idem (a : Nat) : PGROUNDDOWN (PGROUNDDOWN a) = PGROUNDDOWN a := by
  simp only [PGROUNDDOWN, PGSIZE]
  omega

theorem PGROUNDDOWN_div (a : Nat) : PGROUNDDOWN a / PGSIZE = a / PGSIZE := by
  simp only [PGROUNDDOWN, PGSIZE]
  omega

theorem PGROUNDDOWN_mod (a : Nat) : PGROUNDDOWN a % PGSIZE = 0 := by
  simp only [PGROUNDDOWN, PGSIZE]
  omega

/-- C5: resolving a write fault on a mapped COW page (spec-modelled
page-table collaborators `walk`/`walkaddr`/`installMapping`):
(1) when the physical page's refCount is exactly 1, nothing is allocated
— the allocator state is untouched — the entry gets `PTE_W` set and
`PTE_F` cleared in place, and the same physical address is returned;
(2) when the refCount is ≥ 2 (and a free page exists and the mapping
install succeeds), a fresh page is popped, the old page's full contents
are copied into it, the faulting address is remapped to the new page with
writable set and COW cleared, the old page's refCount drops by exactly
one (its contents untouched), the new page's refCount is 1, and the new
page is returned; (3) when allocation fails the failure (null) is
returned to the caller with the state unchanged. -/
theorem c5_cow_resolution (st : Sys) (va : Nat) (pte : PTE)
    (hpte : st.pt (PGROUNDDOWN va) = some pte) (hv : pte.v = true) :
    (st.km.ref (pte.ppn / PGSIZE) = 1 →
      ∀ mapOk, cowalloc st va mapOk = some (some pte.ppn,
        { st with pt := ptset st.pt (PGROUNDDOWN va) (some { pte with w := true, f := false }) }))
    ∧ (2 ≤ st.km.ref (pte.ppn / PGSIZE) → st.km.ref (pte.ppn / PGSIZE) < UINTMOD →
       ∀ mpage rest, st.km.freelist = mpage :: rest →
       mpage / PGSIZE ≠ pte.ppn / PGSIZE →
       st.km.kend ≤ PGROUNDDOWN pte.ppn → PGROUNDDOWN pte.ppn < PHYSTOP →
       ∃ st', cowalloc st va true = some (some mpage, st') ∧
         st'.km.mem (mpage / PGSIZE) = st.km.mem (pte.ppn / PGSIZE) ∧
         st'.km.mem (pte.ppn / PGSIZE) = st.km.mem (pte.ppn / PGSIZE) ∧
         st'.pt (PGROUNDDOWN va) =
           some { v := true, w := true, f := false, rest := pte.rest, ppn := mpage } ∧
         (∀ x, x ≠ PGROUNDDOWN va → st'.pt x = st.pt x) ∧
         st'.km.ref (pte.ppn / PGSIZE) = st.km.ref (pte.ppn / PGSIZE) - 1 ∧
         st'.km.ref (mpage / PGSIZE) = 1 ∧
         st'.km.freelist = rest)
    ∧ (st.km.ref (pte.ppn / PGSIZE) ≠ 1 → st.km.freelist = [] →
       ∀ mapOk, cowalloc st va mapOk = some (none, st)) := by
  have hround := PGROUNDDOWN_idem va
  have hwa : walkaddr st.pt (PGROUNDDOWN va) = some pte.ppn := by
    unfold walkaddr
    rw [hround, hpte]
    show (if pte.v = true then some pte.ppn else none) = some pte.ppn
    rw [if_pos hv]
  have hwk : walk st.pt (PGROUNDDOWN va) = some pte := by
    unfold walk
    rw [hround, hpte]
  refine ⟨?_, ?_, ?_⟩
  · intro h1 mapOk
    simp only [cowalloc, hwa, hwk, if_pos h1]
  · intro h2 hM mpage rest hfl hne hk1 hk2
    have h1' : ¬ (st.km.ref (pte.ppn / PGSIZE) = 1) := by omega
    have hka : kalloc st.km = (some mpage,
        { st.km with
          freelist := rest,
          mem := fun pn => if pn = mpage / PGSIZE then List.replicate PGSIZE 5
                           else st.km.mem pn,
          ref := fun pn => if pn = mpage / PGSIZE then 1 else st.km.ref pn }) := by
      simp [kalloc, hfl]
    have hcheck : ¬ (PGROUNDDOWN pte.ppn % PGSIZE ≠ 0 ∨
        PGROUNDDOWN pte.ppn < st.km.kend ∨ PHYSTOP ≤ PGROUNDDOWN pte.ppn) := by
      intro h
      rcases h with h | h | h
      · exact h (PGROUNDDOWN_mod _)
      · omega
      · omega
    have hz : ¬ (udecr (st.km.ref (pte.ppn / PGSIZE)) = 0) := by
      rw [udecr_pred (by omega) hM]
      omega
    simp only [cowalloc, hwa, hwk, if_neg h1', hka, kfree, if_neg hcheck, PGROUNDDOWN_div]
    simp only [if_neg (Ne.symm hne), if_neg hz]
    refine ⟨_, rfl, ?_, ?_, ?_, ?_, ?_, ?_, rfl⟩
    · simp [hne, Ne.symm hne]
    · simp [hne, Ne.symm hne]
    · simp [ptset]
    · intro x hx
      simp [ptset, hx]
    · show (if pte.ppn / PGSIZE = pte.ppn / PGSIZE then udecr (st.km.ref (pte.ppn / PGSIZE))
          else if pte.ppn / PGSIZE = mpage / PGSIZE then 1 else st.km.ref (pte.ppn / PGSIZE))
          = st.km.ref (pte.ppn / PGSIZE) - 1
      rw [if_pos rfl]
      exact udecr_pred (by omega) hM
    · show (if mpage / PGSIZE = pte.ppn / PGSIZE then udecr (st.km.ref (pte.ppn / PGSIZE))
          else if mpage / PGSIZE = mpage / PGSIZE then 1 else st.km.ref (mpage / PGSIZE)) = 1
      rw [if_neg hne, if_pos rfl]
  · intro h1 hfl mapOk
    have hka : kalloc st.km = (none, st.km) := by
      simp [kalloc, hfl]
    simp only [cowalloc, hwa, hwk, if_neg h1, hka]

set_option maxRecDepth 1024 in
/-- C10: in the shared-page copy path, if installing the new mapping
fails after the new page was allocated and filled (mapOk = false), the
operation is atomic in error: the freshly allocated page goes back to the
allocator (refCount 0, free list exactly as before the call), the page
table is unchanged (the valid bit cleared before the install attempt is
restored), the old page's refCount is not decremented and its contents
are untouched, and the null failure is returned. -/
theorem c10_cow_error_atomicity (st : Sys) (va : Nat) (pte : PTE)
    (hpte : st.pt (PGROUNDDOWN va) = some pte) (hv : pte.v = true)
    (h2 : st.km.ref (pte.ppn / PGSIZE) ≠ 1)
    (mpage : Nat) (rest : List Nat) (hfl : st.km.freelist = mpage :: rest)
    (hne : mpage / PGSIZE ≠ pte.ppn / PGSIZE)
    (halign : mpage % PGSIZE = 0)
    (hlo : st.km.kend ≤ mpage) (hhi : mpage < PHYSTOP) :
    ∃ st', cowalloc st va false = some (none, st') ∧
      st'.km.freelist = st.km.freelist ∧
      st'.km.ref (mpage / PGSIZE) = 0 ∧
      st'.km.ref (pte.ppn / PGSIZE) = st.km.ref (pte.ppn / PGSIZE) ∧
      (∀ x, st'.pt x = st.pt x) ∧
      st'.km.mem (pte.ppn / PGSIZE) = st.km.mem (pte.ppn / PGSIZE) := by
  obtain ⟨pv, pw, pf, pr, pp⟩ := pte
  have hv' : pv = true := hv
  subst hv'
  have hround := PGROUNDDOWN_idem va
  have hwa : walkaddr st.pt (PGROUNDDOWN va) = some pp := by
    unfold walkaddr
    rw [hround, hpte]
    rfl
  have hwk : walk st.pt (PGROUNDDOWN va) =
      some { v := true, w := pw, f := pf, rest := pr, ppn := pp } := by
    unfold walk
    rw [hround, hpte]
  have hka : kalloc st.km = (some mpage,
      { st.km with
        freelist := rest,
        mem := fun pn => if pn = mpage / PGSIZE then List.replicate PGSIZE 5
                         else st.km.mem pn,
        ref := fun pn => if pn = mpage / PGSIZE then 1 else st.km.ref pn }) := by
    simp [kalloc, hfl]
  have hcheck : ¬ (mpage % PGSIZE ≠ 0 ∨ mpage < st.km.kend ∨ PHYSTOP ≤ mpage) := by
    intro h
    rcases h with h | h | h
    · exact h halign
    · omega
    · omega
  simp only [cowalloc, hwa, hwk]
  simp only [if_neg h2, hka, kfree, if_neg Bool.false_ne_true, if_neg hcheck]
  rw [if_pos trivial]
  rw [if_pos (show udecr 1 = 0 from by decide)]
  refine ⟨_, rfl, ?_, ?_, ?_, ?_, ?_⟩
  · simp [hfl]
  · simp [udecr, UINTMOD]
  · simp [Ne.symm hne]
  · intro x
    show (if x = PGROUNDDOWN va
        then some { v := true, w := pw, f := pf, rest := pr, ppn := pp }
        else st.pt x) = st.pt x
    by_cases hx : x = PGROUNDDOWN va
    · rw [if_pos hx, hx, hpte]
    · rw [if_neg hx]
  · simp [Ne.symm hne]

/-- Concrete COW page-table entry: a valid, read-only, COW-flagged mapping of
physical page 2 (address 8192). -/
def c5pte : PTE := { v := true, w := false, f := false, rest := 16, ppn := 8192 }

/-- Concrete system: page 2 shared (refCount 2), one free page (12288) on the
free list, virtual page 0 mapped by `c5pte`. -/
def c5sys : Sys :=
  { km := { freelist := [12288],
            ref := fun pn => if pn = 2 then 2 else 0,
            mem := fun pn => List.replicate 1 pn,
            kend := 4096 },
    pt := fun x => if x = 0 then some c5pte else none }

/-- Witness for C5: on `c5sys` the shared-page copy path pops page 12288,
copies page 2's contents into it, remaps virtual page 0 to it writable and
non-COW, and drops page 2's refCount to 1. -/
theorem c5_cow_resolution_witness :
    ∃ st', cowalloc c5sys 0 true = some (some 12288, st') ∧
      st'.km.mem (12288 / PGSIZE) = c5sys.km.mem (c5pte.ppn / PGSIZE) ∧
      st'.km.mem (c5pte.ppn / PGSIZE) = c5sys.km.mem (c5pte.ppn / PGSIZE) ∧
      st'.pt (PGROUNDDOWN 0) =
        some { v := true, w := true, f := false, rest := c5pte.rest, ppn := 12288 } ∧
      (∀ x, x ≠ PGROUNDDOWN 0 → st'.pt x = c5sys.pt x) ∧
      st'.km.ref (c5pte.ppn / PGSIZE) = c5sys.km.ref (c5pte.ppn / PGSIZE) - 1 ∧
      st'.km.ref (12288 / PGSIZE) = 1 ∧
      st'.km.freelist = [] :=
  (c5_cow_resolution c5sys 0 c5pte rfl rfl).2.1 (by decide) (by decide) 12288 [] rfl
    (by decide) (by decide) (by decide)

/-- Witness for C10: on `c5sys` with the mapping install failing, `cowalloc`
returns null, page 12288 is back on the free list with refCount 0, page 2's
refCount and contents are untouched, and the page table is unchanged. -/
theorem c10_cow_error_atomicity_witness :
    ∃ st', cowalloc c5sys 0 false = some (none, st') ∧
      st'.km.freelist = c5sys.km.freelist ∧
      st'.km.ref (12288 / PGSIZE) = 0 ∧
      st'.km.ref (c5pte.ppn / PGSIZE) = c5sys.km.ref (c5pte.ppn / PGSIZE) ∧
      (∀ x, st'.pt x = c5sys.pt x) ∧
      st'.km.mem (c5pte.ppn / PGSIZE) = c5sys.km.mem (c5pte.ppn / PGSIZE) :=
  c10_cow_error_atomicity c5sys 0 c5pte rfl rfl (by decide) 12288 [] rfl (by decide)
    (by decide) (by decide) (by decide)
